import Mathlib

/-
Verification of the doc-agent core: the Diff Engine (DiffAnalyzer),
the Documentation Reference Finder (DocumentationMapper) and the
Agent Orchestrator (AgentController), embedded shallowly from the
TypeScript sources.  Strings are modelled by Lean `String`
(documentation text is handled as `List Char` where line splitting
matters), JavaScript `Map` objects by association lists in insertion
order, and fallible external collaborators by `Except String`.
-/

namespace DocAgent

/-- One function/method parameter, as in `APIElement.parameters`. -/
structure Param where
  name : String
  type : Option String
  optional : Bool
  defaultValue : Option String
deriving DecidableEq, Repr

/-- An API element as consumed by the Diff Engine.  The `location`
field of the source type is never consulted by any modelled
operation and is omitted. -/
structure APIElement where
  type : String
  name : String
  signature : String
  isPublic : Bool
  parameters : Option (List Param)
  returnType : Option String
  documentation : Option String
deriving DecidableEq, Repr

/-- The four kinds of `ChangeDetail`. -/
inductive ChangeKind where
  | signatureKind
  | parametersKind
  | returnTypeKind
  | documentationKind
deriving DecidableEq, Repr

/-- One distinguishable field difference between an old/new pair. -/
structure ChangeDetail where
  type : ChangeKind
  description : String
deriving DecidableEq, Repr

/-- A modified old/new pair with its change details. -/
structure ModifiedAPI where
  old : APIElement
  new : APIElement
  changes : List ChangeDetail
deriving DecidableEq, Repr

/-- The Diff Engine output: four buckets of API elements. -/
structure APIDiff where
  added : List APIElement
  removed : List APIElement
  modified : List ModifiedAPI
  unchanged : List APIElement
deriving DecidableEq, Repr

/-- Ordered severity classification. -/
inductive ChangeSeverity where
  | patch
  | minor
  | major
  | breaking
deriving DecidableEq, Repr

/-- Position of a severity in the ordered list
`['patch', 'minor', 'major', 'breaking']` (models `indexOf`). -/
def severityIndex : ChangeSeverity → Nat
  | .patch => 0
  | .minor => 1
  | .major => 2
  | .breaking => 3

/-- Lookup in the name-keyed `Map` built by `forEach((api) => map.set(api.name, api))`:
last write wins, modelled as a left fold over insertion order. -/
def mapGet (apis : List APIElement) (s : String) : Option APIElement :=
  apis.foldl (fun acc a => if a.name = s then some a else acc) none

/-- `compareParameters` from DiffAnalyzer.ts: positional scan that
reports the first divergent parameter (source lines 126-141). -/
def firstParamChange : List Param → List Param → Option ChangeDetail
  | [], _ => none
  | _, [] => none
  | o :: os, n :: ns =>
    if o.name ≠ n.name ∨ o.type ≠ n.type ∨ o.optional ≠ n.optional ∨
        o.defaultValue ≠ n.defaultValue then
      some { type := .parametersKind,
             description := "Parameter \"" ++ o.name ++ "\" changed" }
    else firstParamChange os ns

/-- `compareParameters` from DiffAnalyzer.ts: a length mismatch alone
yields a single detail, otherwise the first positionally divergent
parameter (if any) yields one. -/
def compareParameters (oldAPI newAPI : APIElement) : Option ChangeDetail :=
  let oldParams := oldAPI.parameters.getD []
  let newParams := newAPI.parameters.getD []
  if oldParams.length ≠ newParams.length then
    some { type := .parametersKind,
           description := "Parameter count changed from " ++
             toString oldParams.length ++ " to " ++ toString newParams.length }
  else firstParamChange oldParams newParams

/-- `compareAPIs` from DiffAnalyzer.ts: checks signature, parameters,
return type and documentation in this fixed order, accumulating one
detail per positive match. -/
def compareAPIs (oldAPI newAPI : APIElement) : List ChangeDetail :=
  let sigChanges : List ChangeDetail :=
    if oldAPI.signature ≠ newAPI.signature then
      [{ type := .signatureKind,
         description := "Signature changed from \"" ++ oldAPI.signature ++
           "\" to \"" ++ newAPI.signature ++ "\"" }]
    else []
  let paramChanges : List ChangeDetail := (compareParameters oldAPI newAPI).toList
  let returnChanges : List ChangeDetail :=
    if oldAPI.returnType ≠ newAPI.returnType then
      [{ type := .returnTypeKind,
         description := "Return type changed from \"" ++
           oldAPI.returnType.getD "void" ++ "\" to \"" ++
           newAPI.returnType.getD "void" ++ "\"" }]
    else []
  let docChanges : List ChangeDetail :=
    if oldAPI.documentation ≠ newAPI.documentation then
      [{ type := .documentationKind, description := "Documentation was updated" }]
    else []
  sigChanges ++ paramChanges ++ returnChanges ++ docChanges

/-- `analyze` from DiffAnalyzer.ts: partitions the two collections by
name into added/removed/modified/unchanged.  The three `forEach`
loops over the source arrays become order-preserving filters. -/
def analyze (oldApis newApis : List APIElement) : APIDiff :=
  let added := newApis.filter (fun a => (mapGet oldApis a.name).isNone)
  let removed := oldApis.filter (fun a => (mapGet newApis a.name).isNone)
  let modified := oldApis.filterMap (fun o =>
    match mapGet newApis o.name with
    | none => none
    | some n =>
      let changes := compareAPIs o n
      if changes.isEmpty then none else some ⟨o, n, changes⟩)
  let unchanged := oldApis.filterMap (fun o =>
    match mapGet newApis o.name with
    | none => none
    | some n => if (compareAPIs o n).isEmpty then some o else none)
  ⟨added, removed, modified, unchanged⟩

/-- `calculateSeverity` from DiffAnalyzer.ts, including the final
documentation-change branch that returns `patch` on both sides. -/
def calculateSeverity (diff : APIDiff) : ChangeSeverity :=
  let hasRemovedPublicAPI := diff.removed.any (fun api => api.isPublic)
  let hasBreakingModification := diff.modified.any (fun m =>
    m.old.isPublic && m.changes.any (fun c =>
      decide (c.type = .parametersKind) || decide (c.type = .returnTypeKind)))
  if hasRemovedPublicAPI || hasBreakingModification then .breaking
  else
    let hasAddedPublicAPI := diff.added.any (fun api => api.isPublic)
    if hasAddedPublicAPI then .major
    else
      let hasNonBreakingModification := diff.modified.any (fun m =>
        m.old.isPublic && m.changes.any (fun c => decide (c.type ≠ .documentationKind)))
      if hasNonBreakingModification then .minor
      else
        let hasDocumentationChange := diff.modified.any (fun m =>
          m.changes.any (fun c => decide (c.type = .documentationKind)))
        if hasDocumentationChange then .patch
        else .patch

/-- The specification's ordered decision list for severity, written
from the spec's words (section 4.1) for comparison with
`calculateSeverity`. -/
def severitySpec (diff : APIDiff) : ChangeSeverity :=
  if diff.removed.any (fun api => api.isPublic) ||
      diff.modified.any (fun m =>
        m.old.isPublic && m.changes.any (fun c =>
          decide (c.type = .parametersKind) || decide (c.type = .returnTypeKind))) then
    .breaking
  else if diff.added.any (fun api => api.isPublic) then .major
  else if diff.modified.any (fun m =>
      m.old.isPublic && m.changes.any (fun c => decide (c.type ≠ .documentationKind))) then
    .minor
  else .patch

/-- The empty diff. -/
def emptyDiff : APIDiff := ⟨[], [], [], []⟩

/-- Positional parameter divergence, from the spec's words: a
difference in name, type, optional flag, or default value. -/
def paramsDiverge (o n : Param) : Bool :=
  decide (o.name ≠ n.name ∨ o.type ≠ n.type ∨ o.optional ≠ n.optional ∨
    o.defaultValue ≠ n.defaultValue)

/-- The detail reported for the first divergent parameter. -/
def paramChangedDetail (p : Param) : ChangeDetail :=
  { type := .parametersKind, description := "Parameter \"" ++ p.name ++ "\" changed" }

/-- Element with an absent return type, used by concrete witnesses. -/
def elNoRet : APIElement :=
  { type := "function", name := "f", signature := "f()", isPublic := true,
    parameters := none, returnType := none, documentation := none }

/-- Element whose return type is the literal string "void". -/
def elVoidRet : APIElement :=
  { type := "function", name := "f", signature := "f()", isPublic := true,
    parameters := none, returnType := some "void", documentation := none }

/-- First of two distinct elements sharing the name "a": since the
name-keyed lookup maps are built with last-write-wins insertion,
reordering duplicates changes which element wins. -/
def elA1 : APIElement :=
  { type := "function", name := "a", signature := "s1", isPublic := true,
    parameters := none, returnType := none, documentation := none }

/-- Second element named "a", with a different signature. -/
def elA2 : APIElement :=
  { type := "function", name := "a", signature := "s2", isPublic := true,
    parameters := none, returnType := none, documentation := none }

/-- JavaScript regex word character (the `\w` class): ASCII letter,
digit or underscore. -/
def isWordChar (c : Char) : Bool := c.isAlphanum || c = '_'

/-- Wordness of the character at an index; out of range counts as
non-word (a position outside the string never carries a word char). -/
def wordAt (line : List Char) (i : Nat) : Bool :=
  match line.get? i with
  | some c => isWordChar c
  | none => false

/-- JavaScript regex word boundary at position p: exactly one of the
two adjacent positions holds a word character (start of string counts
as non-word). -/
def boundaryAt (line : List Char) (p : Nat) : Bool :=
  (if p = 0 then false else wordAt line (p - 1)) != wordAt line p

/-- The literal name occurs at index i with a word boundary on both
sides. -/
def matchesAt (name line : List Char) (i : Nat) : Bool :=
  decide ((line.drop i).take name.length = name) && boundaryAt line i &&
    boundaryAt line (i + name.length)

/-- Whole-word containment: models the test of the regex built in
`findReferences`, backslash-b, the escaped name, backslash-b. -/
def hasWordMatch (name line : List Char) : Bool :=
  (List.range (line.length + 1)).any (fun i => matchesAt name line i)

/-- Wordness of the first character of a list ([] counts non-word). -/
def headWord (l : List Char) : Bool :=
  match l.head? with
  | some c => isWordChar c
  | none => false

/-- Wordness of the last character of a list ([] counts non-word). -/
def lastWord (l : List Char) : Bool :=
  match l.getLast? with
  | some c => isWordChar c
  | none => false

/-- Models JavaScript `content.split('\n')` (an empty content gives
one empty line; a trailing newline gives a trailing empty line). -/
def splitLines : List Char → List (List Char)
  | [] => [[]]
  | c :: cs =>
    match splitLines cs with
    | [] => [[]]
    | l :: ls => if c = '\n' then [] :: l :: ls else (c :: l) :: ls

/-- Line-level textual reference to an API element. -/
structure DocReference where
  filePath : String
  lineNumber : Nat
  context : List Char
  referenceType : String
deriving DecidableEq, Repr

/-- The three-line context window around line index i: one line before
through one line after, clipped at the file edges, joined with
newlines (models `lines.slice(contextStart, contextEnd + 1).join('\n')`). -/
def lineContext (lines : List (List Char)) (i : Nat) : List Char :=
  let contextStart := i - 1
  let contextEnd := min (lines.length - 1) (i + 1)
  List.intercalate ['\n'] ((lines.drop contextStart).take (contextEnd + 1 - contextStart))

/-- The per-file part of `findReferences`: one DocReference per line
with a whole-word match, carrying the 1-based line number and the
context window. -/
def findReferencesFile (name : List Char) (filePath : String) (content : List Char) :
    List DocReference :=
  let lines := splitLines content
  (List.range lines.length).filterMap (fun i =>
    if hasWordMatch name (lines.getD i []) then
      some { filePath := filePath, lineNumber := i + 1,
             context := lineContext lines i, referenceType := "name" }
    else none)

/-- `findReferences` from DocumentationMapper.ts, over the in-memory
documentation index (path and content, in insertion order). -/
def findReferences (index : List (String × List Char)) (el : APIElement) :
    List DocReference :=
  index.flatMap (fun f => findReferencesFile el.name.data f.1 f.2)

/-- One fenced code block of a documentation file. -/
structure CodeExample where
  filePath : String
  code : List Char
  language : List Char
  startLine : Nat
  endLine : Nat
deriving DecidableEq, Repr

/-- The backtick character. -/
def fenceChar : Char := Char.ofNat 96

/-- A line opening a fence: it starts with three backticks (the
open-fence regex test). -/
def isFenceOpen (line : List Char) : Bool :=
  decide (line.take 3 = [fenceChar, fenceChar, fenceChar])

/-- The language tag: the maximal run of word characters directly
after the three backticks (empty when untagged). -/
def fenceLanguage (line : List Char) : List Char :=
  (line.drop 3).takeWhile isWordChar

/-- A line closing a fence: exactly three backticks. -/
def isFenceClose (line : List Char) : Bool :=
  decide (line = [fenceChar, fenceChar, fenceChar])

/-- The `extractCodeBlocks` state machine from DocumentationMapper.ts:
i is the 0-based index of the next line, a block records the joined
body, the language, and 1-based start/end line numbers of the body. -/
def extractCodeBlocksAux (filePath : String) (i : Nat) (inCodeBlock : Bool)
    (currentBlock : List (List Char)) (currentLanguage : List Char)
    (blockStartLine : Nat) : List (List Char) → List CodeExample
  | [] => []
  | line :: rest =>
    if isFenceOpen line && !inCodeBlock then
      extractCodeBlocksAux filePath (i + 1) true [] (fenceLanguage line) (i + 1) rest
    else if isFenceClose line && inCodeBlock then
      { filePath := filePath, code := List.intercalate ['\n'] currentBlock,
        language := currentLanguage, startLine := blockStartLine + 1, endLine := i } ::
        extractCodeBlocksAux filePath (i + 1) false [] currentLanguage blockStartLine rest
    else if inCodeBlock then
      extractCodeBlocksAux filePath (i + 1) inCodeBlock (currentBlock ++ [line])
        currentLanguage blockStartLine rest
    else
      extractCodeBlocksAux filePath (i + 1) inCodeBlock currentBlock currentLanguage
        blockStartLine rest

/-- `extractCodeBlocks` over a file's content. -/
def extractCodeBlocks (content : List Char) (filePath : String) : List CodeExample :=
  extractCodeBlocksAux filePath 0 false [] [] 0 (splitLines content)

/-- `findCodeExamples` from DocumentationMapper.ts: the fenced blocks
whose body contains a whole-word occurrence of the element's name. -/
def findCodeExamples (index : List (String × List Char)) (el : APIElement) :
    List CodeExample :=
  index.flatMap (fun f =>
    (extractCodeBlocks f.2 f.1).filter (fun b => hasWordMatch el.name.data b.code))

/-- One affected documentation file with its accumulated hits. -/
structure DocFile where
  path : String
  content : List Char
  references : List DocReference
  examples : List CodeExample
deriving DecidableEq, Repr

/-- The Aggregator output (the files map is an association list in
insertion order, as a JavaScript Map iterates). -/
structure AffectedDocumentation where
  files : List (String × DocFile)
  totalReferences : Nat
  missingDocs : List APIElement
deriving DecidableEq, Repr

/-- Models `this.docIndex.get(path) || ''`. -/
def indexContent (index : List (String × List Char)) (p : String) : List Char :=
  match index.find? (fun f => f.1 == p) with
  | some f => f.2
  | none => []

/-- Append one reference to its file's DocFile entry, lazily creating
the entry on first contact. -/
def pushReference (index : List (String × List Char)) (files : List (String × DocFile))
    (r : DocReference) : List (String × DocFile) :=
  if files.any (fun e => e.1 == r.filePath) then
    files.map (fun e => if e.1 == r.filePath then
      (e.1, { e.2 with references := e.2.references ++ [r] }) else e)
  else
    files ++ [(r.filePath,
      { path := r.filePath, content := indexContent index r.filePath,
        references := [r], examples := [] })]

/-- Append one code example to its file's DocFile entry, lazily
creating the entry on first contact. -/
def pushExample (index : List (String × List Char)) (files : List (String × DocFile))
    (x : CodeExample) : List (String × DocFile) :=
  if files.any (fun e => e.1 == x.filePath) then
    files.map (fun e => if e.1 == x.filePath then
      (e.1, { e.2 with examples := e.2.examples ++ [x] }) else e)
  else
    files ++ [(x.filePath,
      { path := x.filePath, content := indexContent index x.filePath,
        references := [], examples := [x] })]

/-- First-match lookup in the files association list (observes the
JavaScript `Map.get` on the files map). -/
def filesLookup (files : List (String × DocFile)) (p : String) : Option DocFile :=
  (files.find? (fun e => e.1 == p)).map Prod.snd

/-- The per-element body of the `mapAffectedDocs` loop. -/
def processAPI (index : List (String × List Char)) (st : AffectedDocumentation)
    (api : APIElement) : AffectedDocumentation :=
  let references := findReferences index api
  let examples := findCodeExamples index api
  if references.isEmpty && examples.isEmpty && api.isPublic then
    { st with missingDocs := st.missingDocs ++ [api] }
  else
    let files1 := references.foldl (pushReference index) st.files
    let files2 := examples.foldl (pushExample index) files1
    { files := files2, totalReferences := st.totalReferences + references.length,
      missingDocs := st.missingDocs }

/-- The candidate set of `mapAffectedDocs`: added, removed, and the
new side of each modified pair. -/
def changedAPIs (diff : APIDiff) : List APIElement :=
  diff.added ++ diff.removed ++ diff.modified.map (fun m => m.new)

/-- `mapAffectedDocs` from DocumentationMapper.ts. -/
def mapAffectedDocs (index : List (String × List Char)) (diff : APIDiff) :
    AffectedDocumentation :=
  (changedAPIs diff).foldl (processAPI index) ⟨[], 0, []⟩

/-- The element named getUser used by the word-boundary scenario. -/
def elGetUser : APIElement :=
  { type := "function", name := "getUser", signature := "getUser(): User",
    isPublic := true, parameters := none, returnType := none, documentation := none }

/-- One detected code change, as yielded by the change-detection
collaborator (`previousContent` is optional and may be absent even
for a non-added change, when the previous version is unavailable). -/
structure CodeChange where
  filePath : String
  changeType : String
  language : String
  content : String
  previousContent : Option String
deriving DecidableEq, Repr

/-- The external parser's output boundary. -/
structure ParsedCode where
  apis : List APIElement
  imports : List String
  exports : List String
deriving DecidableEq, Repr

/-- One generated documentation update. -/
structure DocumentationUpdate where
  filePath : String
  originalContent : String
  updatedContent : String
  reasoning : String
deriving DecidableEq, Repr

/-- One review decision for one update. -/
structure ReviewDecision where
  action : String
  feedback : Option String
  editedContent : Option String
deriving DecidableEq, Repr

/-- The externally observable outcome of one orchestrator run. -/
structure AgentResult where
  success : Bool
  updatesGenerated : Nat
  updatesApplied : Nat
  errors : List String
  summary : String
deriving DecidableEq, Repr

/-- The configuration fields the orchestrator consults. -/
structure AgentConfig where
  minSeverity : ChangeSeverity
deriving DecidableEq, Repr

/-- The string form of a severity, as used in the threshold
message. -/
def severityName : ChangeSeverity → String
  | .patch => "patch"
  | .minor => "minor"
  | .major => "major"
  | .breaking => "breaking"

/-- The external collaborators consumed by one orchestrator run:
change detection, the parser, the documentation index the mapper
scans, the generator, the review surface and the file writer; a
failing call is an `Except.error` carrying its message. -/
structure Collaborators where
  detect : Except String (List CodeChange)
  parse : String → String → Except String ParsedCode
  docIndex : List (String × List Char)
  generate : DocFile → Except String DocumentationUpdate
  review : List DocumentationUpdate → Except String (List ReviewDecision)
  write : String → String → Except String Unit

/-- JavaScript truthiness of `change.previousContent`: present and
non-empty (the empty string is falsy). -/
def prevTruthy (c : CodeChange) : Bool :=
  match c.previousContent with
  | some p => decide (p ≠ "")
  | none => false

/-- `parseAndAnalyze` from AgentController.ts: per change, parse the
new content; when the change carries (truthy) previous content and is
not an addition, parse the old content and run the Diff Engine; an
added change contributes a synthetic all-added diff; a per-change
parse failure is recorded and the change is skipped.  Returns the
parsed-code entries, the diffs, and the errors, in source order. -/
def parseAndAnalyze (parse : String → String → Except String ParsedCode) :
    List CodeChange → List (String × ParsedCode) × List APIDiff × List String
  | [] => ([], [], [])
  | c :: rest =>
    match parse c.content c.language with
    | .error e =>
      let r := parseAndAnalyze parse rest
      (r.1, r.2.1, ("Failed to parse " ++ c.filePath ++ ": " ++ e) :: r.2.2)
    | .ok newParsed =>
      if prevTruthy c && !(c.changeType == "added") then
        match parse (c.previousContent.getD "") c.language with
        | .error e =>
          let r := parseAndAnalyze parse rest
          ((c.filePath, newParsed) :: r.1, r.2.1,
            ("Failed to parse " ++ c.filePath ++ ": " ++ e) :: r.2.2)
        | .ok oldParsed =>
          let r := parseAndAnalyze parse rest
          ((c.filePath, newParsed) :: r.1,
            analyze oldParsed.apis newParsed.apis :: r.2.1, r.2.2)
      else if c.changeType == "added" then
        let r := parseAndAnalyze parse rest
        ((c.filePath, newParsed) :: r.1,
          APIDiff.mk newParsed.apis [] [] [] :: r.2.1, r.2.2)
      else
        let r := parseAndAnalyze parse rest
        ((c.filePath, newParsed) :: r.1, r.2.1, r.2.2)

/-- Whether a change contributes one APIDiff in `parseAndAnalyze`. -/
def contributesDiff (parse : String → String → Except String ParsedCode)
    (c : CodeChange) : Bool :=
  match parse c.content c.language with
  | .error _ => false
  | .ok _ =>
    if prevTruthy c && !(c.changeType == "added") then
      match parse (c.previousContent.getD "") c.language with
      | .error _ => false
      | .ok _ => true
    else c.changeType == "added"

/-- `filterDiffsBySeverity` from AgentController.ts: keep diffs whose
severity index reaches the configured minimum. -/
def filterDiffsBySeverity (cfg : AgentConfig) (diffs : List APIDiff) : List APIDiff :=
  diffs.filter (fun d => severityIndex cfg.minSeverity ≤ severityIndex (calculateSeverity d))

/-- Bucket-wise concatenation of several diffs (no deduplication). -/
def combineDiffs (diffs : List APIDiff) : APIDiff :=
  { added := diffs.flatMap (fun d => d.added),
    removed := diffs.flatMap (fun d => d.removed),
    modified := diffs.flatMap (fun d => d.modified),
    unchanged := diffs.flatMap (fun d => d.unchanged) }

/-- `generateUpdates` from AgentController.ts: one generator call per
affected file; a failure is recorded and that file skipped. -/
def generateUpdates (generate : DocFile → Except String DocumentationUpdate)
    (files : List (String × DocFile)) : List DocumentationUpdate × List String :=
  files.foldl (fun acc f =>
    match generate f.2 with
    | .ok u => (acc.1 ++ [u], acc.2)
    | .error e => (acc.1, acc.2 ++ ["Failed to generate update for " ++ f.1 ++ ": " ++ e]))
    ([], [])

/-- `reviewUpdates` from AgentController.ts: on a review failure,
record the error and reject every pending update. -/
def reviewUpdates (review : List DocumentationUpdate → Except String (List ReviewDecision))
    (updates : List DocumentationUpdate) : List ReviewDecision × List String :=
  match review updates with
  | .ok ds => (ds, [])
  | .error e =>
    (updates.map (fun _ => ReviewDecision.mk "reject" (some "Review failed") none),
      ["Review failed: " ++ e])

/-- The content written for an approved or edited update (an edit
with absent or empty edited content falls back to the generated
content, mirroring the source's truthiness test). -/
def contentToWrite (u : DocumentationUpdate) (d : ReviewDecision) : String :=
  if d.action == "edit" then
    match d.editedContent with
    | some ec => if ec == "" then u.updatedContent else ec
    | none => u.updatedContent
  else u.updatedContent

/-- `applyApprovedUpdates` from AgentController.ts: write each
approved or edited update; count successes; a write failure is
recorded and processing continues (no rollback). -/
def applyApprovedUpdates (write : String → String → Except String Unit) :
    List (DocumentationUpdate × ReviewDecision) → Nat × List String
  | [] => (0, [])
  | (u, d) :: rest =>
    if d.action == "approve" || d.action == "edit" then
      match write u.filePath (contentToWrite u d) with
      | .ok _ =>
        let r := applyApprovedUpdates write rest
        (r.1 + 1, r.2)
      | .error e =>
        let r := applyApprovedUpdates write rest
        (r.1, ("Failed to write " ++ u.filePath ++ ": " ++ e) :: r.2)
    else applyApprovedUpdates write rest

/-- Whether writing an update's generated content succeeds. -/
def writeSucceeds (write : String → String → Except String Unit)
    (u : DocumentationUpdate) : Bool :=
  match write u.filePath u.updatedContent with
  | .ok _ => true
  | .error _ => false

/-- `buildSummary` from AgentController.ts. -/
def buildSummary (updatesGenerated updatesApplied : Nat) (errors : List String)
    (filesAnalyzed apisChanged : Nat) : String :=
  String.intercalate ". "
    (["Generated " ++ toString updatesGenerated ++ " documentation update(s)",
      "Applied " ++ toString updatesApplied ++ " update(s)"] ++
     (if errors.length > 0 then
       ["Encountered " ++ toString errors.length ++ " error(s)"] else []) ++
     ["Analyzed " ++ toString filesAnalyzed ++ " file(s)",
      "Found " ++ toString apisChanged ++ " API change(s)"]) ++ "."

/-- `run` from AgentController.ts: the six-phase pipeline with its
three short-circuits; per-item failures accumulate in the error list;
only a detection failure (the one modelled uncaught exception source)
flips success to false. -/
def run (cfg : AgentConfig) (collab : Collaborators) : AgentResult :=
  match collab.detect with
  | .error e =>
    { success := false, updatesGenerated := 0, updatesApplied := 0,
      errors := ["Failed to detect changes: " ++ e],
      summary := "Pipeline failed: Failed to detect changes: " ++ e }
  | .ok changes =>
    if changes.length == 0 then
      { success := true, updatesGenerated := 0, updatesApplied := 0, errors := [],
        summary := "No code changes detected" }
    else
      let pa := parseAndAnalyze collab.parse changes
      let filteredDiffs := filterDiffsBySeverity cfg pa.2.1
      if filteredDiffs.length == 0 then
        { success := true, updatesGenerated := 0, updatesApplied := 0, errors := pa.2.2,
          summary := "No changes meet the minimum severity threshold (" ++
            severityName cfg.minSeverity ++ ")" }
      else
        let apisChanged := (filteredDiffs.map (fun d =>
          d.added.length + d.removed.length + d.modified.length)).sum
        let affectedDocs := mapAffectedDocs collab.docIndex (combineDiffs filteredDiffs)
        if affectedDocs.files.length == 0 then
          { success := true, updatesGenerated := 0, updatesApplied := 0, errors := pa.2.2,
            summary := "No documentation files affected by changes" }
        else
          let gu := generateUpdates collab.generate affectedDocs.files
          let ru := reviewUpdates collab.review gu.1
          let au := applyApprovedUpdates collab.write (gu.1.zip ru.1)
          { success := true, updatesGenerated := gu.1.length, updatesApplied := au.1,
            errors := pa.2.2 ++ gu.2 ++ ru.2 ++ au.2,
            summary := buildSummary gu.1.length au.1 (pa.2.2 ++ gu.2 ++ ru.2 ++ au.2)
              changes.length apisChanged }

/-- The deep (no-short-circuit) branch of `run`, named so the
orchestration theorems can talk about the result of a run that
reaches the generate/review/apply phases. -/
def runDeep (cfg : AgentConfig) (collab : Collaborators) (changes : List CodeChange) :
    AgentResult :=
  let pa := parseAndAnalyze collab.parse changes
  let filteredDiffs := filterDiffsBySeverity cfg pa.2.1
  let apisChanged := (filteredDiffs.map (fun d =>
    d.added.length + d.removed.length + d.modified.length)).sum
  let affectedDocs := mapAffectedDocs collab.docIndex (combineDiffs filteredDiffs)
  let gu := generateUpdates collab.generate affectedDocs.files
  let ru := reviewUpdates collab.review gu.1
  let au := applyApprovedUpdates collab.write (gu.1.zip ru.1)
  { success := true, updatesGenerated := gu.1.length, updatesApplied := au.1,
    errors := pa.2.2 ++ gu.2 ++ ru.2 ++ au.2,
    summary := buildSummary gu.1.length au.1 (pa.2.2 ++ gu.2 ++ ru.2 ++ au.2)
      changes.length apisChanged }

/-- A modified change with no previous content available. -/
def chModNoPrev : CodeChange :=
  { filePath := "f.ts", changeType := "modified", language := "typescript",
    content := "x", previousContent := none }

/-- An added change. -/
def chAdded : CodeChange :=
  { filePath := "f.ts", changeType := "added", language := "typescript",
    content := "src", previousContent := none }

/-- A parser stub that always succeeds with one public element. -/
def trivParse : String → String → Except String ParsedCode :=
  fun _ _ => Except.ok (ParsedCode.mk [elGetUser] [] [])

/-- Collaborators whose detection yields no changes. -/
def collabNoChanges : Collaborators :=
  { detect := Except.ok [], parse := fun _ _ => Except.error "unused",
    docIndex := [], generate := fun _ => Except.error "unused",
    review := fun _ => Except.error "unused", write := fun _ _ => Except.error "unused" }

/-- A second no-change collaborator set, differing in every later
phase, to show the later phases are never consulted. -/
def collabNoChanges2 : Collaborators :=
  { detect := Except.ok [], parse := trivParse,
    docIndex := [("a.md", String.data "getUser")],
    generate := fun df => Except.ok (DocumentationUpdate.mk df.path "" "new" "why"),
    review := fun us => Except.ok (us.map (fun _ => ReviewDecision.mk "approve" none none)),
    write := fun _ _ => Except.ok () }

/-- Collaborators that reach the apply phase with three approved
updates, of which exactly the write to d2.md fails. -/
def collabApply : Collaborators :=
  { detect := Except.ok [chAdded], parse := trivParse,
    docIndex := [("d1.md", String.data "getUser a"),
                 ("d2.md", String.data "getUser b"),
                 ("d3.md", String.data "getUser c")],
    generate := fun df => Except.ok (DocumentationUpdate.mk df.path "" "new" "why"),
    review := fun us => Except.ok (us.map (fun _ => ReviewDecision.mk "approve" none none)),
    write := fun p _ => if p == "d2.md" then Except.error "disk full" else Except.ok () }

/-- Collaborators that reach the review phase, whose batch review
call fails. -/
def collabReviewFail : Collaborators :=
  { detect := Except.ok [chAdded], parse := trivParse,
    docIndex := [("d1.md", String.data "getUser a")],
    generate := fun df => Except.ok (DocumentationUpdate.mk df.path "" "new" "why"),
    review := fun _ => Except.error "boom",
    write := fun _ _ => Except.ok () }

/-- The names of the elements of a diff, one per bucket entry
(a modified pair is counted under the old element's name). -/
def diffNames (d : APIDiff) : List String :=
  d.added.map (fun a => a.name) ++ d.removed.map (fun a => a.name) ++
    d.modified.map (fun m => m.old.name) ++ d.unchanged.map (fun a => a.name)

/-- Sample public element used by concrete witnesses. -/
def elFoo : APIElement :=
  { type := "function", name := "foo", signature := "foo(): void",
    isPublic := true, parameters := some [], returnType := some "void",
    documentation := none }

/-- Second sample element with a different name. -/
def elBar : APIElement :=
  { type := "function", name := "bar", signature := "bar(): void",
    isPublic := true, parameters := some [], returnType := some "void",
    documentation := none }

end DocAgent

namespace DocAgent

/-- C1: calculateSeverity is the ordered decision list of the spec;
a removed public element forces breaking regardless of the rest of
the diff, and the empty diff is patch. -/
theorem calculateSeverity_decision_list (diff : APIDiff) :
    calculateSeverity diff = severitySpec diff ∧
    (diff.removed.any (fun api => api.isPublic) = true →
      calculateSeverity diff = ChangeSeverity.breaking) ∧
    calculateSeverity emptyDiff = ChangeSeverity.patch := by
  refine ⟨?_, ?_, rfl⟩
  · simp only [calculateSeverity, severitySpec]
    split_ifs <;> rfl
  · intro h
    simp only [calculateSeverity, h]
    simp

/-- Witness for C1 at a diff that removes a public element while also
adding one: severity is breaking. -/
theorem calculateSeverity_decision_list_witness :
    (APIDiff.mk [elBar] [elFoo] [] []).removed.any (fun api => api.isPublic) = true ∧
    calculateSeverity (APIDiff.mk [elBar] [elFoo] [] []) = ChangeSeverity.breaking :=
  ⟨by decide, (calculateSeverity_decision_list (APIDiff.mk [elBar] [elFoo] [] [])).2.1
    (by decide)⟩

theorem find_isSome_eq_any {α : Type} (l : List α) (p : α → Bool) :
    (l.find? p).isSome = l.any p := by
  induction l with
  | nil => rfl
  | cons a t ih =>
    by_cases h : p a <;> simp [List.find?_cons, h, ih]

theorem firstParamChange_eq_find (l1 l2 : List Param) :
    firstParamChange l1 l2 =
      ((l1.zip l2).find? (fun p => paramsDiverge p.1 p.2)).map
        (fun p => paramChangedDetail p.1) := by
  induction l1 generalizing l2 with
  | nil => cases l2 <;> rfl
  | cons o os ih =>
    cases l2 with
    | nil => rfl
    | cons n ns =>
      by_cases h : o.name ≠ n.name ∨ o.type ≠ n.type ∨ o.optional ≠ n.optional ∨
          o.defaultValue ≠ n.defaultValue
      · simp [firstParamChange, h, List.zip_cons_cons, List.find?_cons, paramsDiverge,
          paramChangedDetail]
      · simp [firstParamChange, h, List.zip_cons_cons, List.find?_cons, paramsDiverge, ih]

theorem compareParameters_characterization (o n : APIElement) :
    compareParameters o n =
      (if (o.parameters.getD []).length ≠ (n.parameters.getD []).length then
        some { type := .parametersKind,
               description := "Parameter count changed from " ++
                 toString (o.parameters.getD []).length ++ " to " ++
                 toString (n.parameters.getD []).length }
      else (((o.parameters.getD []).zip (n.parameters.getD [])).find?
          (fun p => paramsDiverge p.1 p.2)).map (fun p => paramChangedDetail p.1)) := by
  unfold compareParameters
  by_cases h : (o.parameters.getD []).length ≠ (n.parameters.getD []).length
  · simp [h]
  · simp [h, firstParamChange_eq_find]

theorem compareParameters_kind (o n : APIElement) (c : ChangeDetail)
    (h : compareParameters o n = some c) : c.type = ChangeKind.parametersKind := by
  rw [compareParameters_characterization] at h
  by_cases hl : (o.parameters.getD []).length ≠ (n.parameters.getD []).length
  · simp [hl] at h
    rw [← h]
  · simp [hl] at h
    obtain ⟨p, _, hp⟩ := h
    rw [← hp]
    rfl

/-- C3: compareAPIs checks the four aspects in the fixed order
signature, parameters, return type, documentation, emitting at most
one detail of each kind; each kind is present exactly when its aspect
differs (for parameters: length mismatch or some positionally
divergent pair); the parameters detail is the length-mismatch detail
or else the first positionally divergent parameter; the return-type
comparison is raw optional equality, with "void" substituted only in
the message, so an absent return type compared against the string
"void" still counts as a change. -/
theorem compareAPIs_fixed_order (o n : APIElement) :
    ((compareAPIs o n).map (fun c => c.type)).Sublist
      [ChangeKind.signatureKind, ChangeKind.parametersKind,
       ChangeKind.returnTypeKind, ChangeKind.documentationKind] ∧
    (compareAPIs o n).any (fun c => decide (c.type = ChangeKind.signatureKind)) =
      decide (o.signature ≠ n.signature) ∧
    (compareAPIs o n).any (fun c => decide (c.type = ChangeKind.parametersKind)) =
      (decide ((o.parameters.getD []).length ≠ (n.parameters.getD []).length) ||
        ((o.parameters.getD []).zip (n.parameters.getD [])).any
          (fun p => paramsDiverge p.1 p.2)) ∧
    (compareAPIs o n).any (fun c => decide (c.type = ChangeKind.returnTypeKind)) =
      decide (o.returnType ≠ n.returnType) ∧
    (compareAPIs o n).any (fun c => decide (c.type = ChangeKind.documentationKind)) =
      decide (o.documentation ≠ n.documentation) ∧
    compareParameters o n =
      (if (o.parameters.getD []).length ≠ (n.parameters.getD []).length then
        some { type := .parametersKind,
               description := "Parameter count changed from " ++
                 toString (o.parameters.getD []).length ++ " to " ++
                 toString (n.parameters.getD []).length }
      else (((o.parameters.getD []).zip (n.parameters.getD [])).find?
          (fun p => paramsDiverge p.1 p.2)).map (fun p => paramChangedDetail p.1)) ∧
    (o.returnType = none → n.returnType = some "void" →
      ∃ c ∈ compareAPIs o n, c.type = ChangeKind.returnTypeKind ∧
        c.description = "Return type changed from \"void\" to \"void\"") := by
  have hparam : ∀ c, compareParameters o n = some c →
      c.type = ChangeKind.parametersKind := compareParameters_kind o n
  refine ⟨?_, ?_, ?_, ?_, ?_, compareParameters_characterization o n, ?_⟩
  · -- fixed-order sublist
    show ((compareAPIs o n).map (fun c => c.type)).Sublist
      ([ChangeKind.signatureKind] ++ [ChangeKind.parametersKind] ++
        [ChangeKind.returnTypeKind] ++ [ChangeKind.documentationKind])
    unfold compareAPIs
    simp only [List.map_append]
    refine List.Sublist.append (List.Sublist.append (List.Sublist.append ?_ ?_) ?_) ?_
    · by_cases h : o.signature ≠ n.signature <;> simp [h]
    · cases hc : compareParameters o n with
      | none => simp
      | some c => simp [hparam c hc]
    · by_cases h : o.returnType ≠ n.returnType <;> simp [h]
    · by_cases h : o.documentation ≠ n.documentation <;> simp [h]
  · unfold compareAPIs
    by_cases h1 : o.signature ≠ n.signature <;>
      cases hc : compareParameters o n <;>
      by_cases h3 : o.returnType ≠ n.returnType <;>
      by_cases h4 : o.documentation ≠ n.documentation <;>
      simp_all [List.any_append, hparam]
  · unfold compareAPIs
    have hiso : (compareParameters o n).isSome =
        (decide ((o.parameters.getD []).length ≠ (n.parameters.getD []).length) ||
          ((o.parameters.getD []).zip (n.parameters.getD [])).any
            (fun p => paramsDiverge p.1 p.2)) := by
      rw [compareParameters_characterization]
      by_cases hl : (o.parameters.getD []).length ≠ (n.parameters.getD []).length
      · simp [hl]
      · simp [hl, find_isSome_eq_any]
    rw [← hiso]
    by_cases h1 : o.signature ≠ n.signature <;>
      cases hc : compareParameters o n <;>
      by_cases h3 : o.returnType ≠ n.returnType <;>
      by_cases h4 : o.documentation ≠ n.documentation <;>
      simp_all [List.any_append, hparam]
  · unfold compareAPIs
    by_cases h1 : o.signature ≠ n.signature <;>
      cases hc : compareParameters o n <;>
      by_cases h3 : o.returnType ≠ n.returnType <;>
      by_cases h4 : o.documentation ≠ n.documentation <;>
      simp_all [List.any_append, hparam]
  · unfold compareAPIs
    by_cases h1 : o.signature ≠ n.signature <;>
      cases hc : compareParameters o n <;>
      by_cases h3 : o.returnType ≠ n.returnType <;>
      by_cases h4 : o.documentation ≠ n.documentation <;>
      simp_all [List.any_append, hparam]
  · intro ho hn
    have hne : o.returnType ≠ n.returnType := by rw [ho, hn]; simp
    refine ⟨{ type := .returnTypeKind,
              description := "Return type changed from \"void\" to \"void\"" }, ?_, rfl, rfl⟩
    unfold compareAPIs
    simp only [List.mem_append]
    refine Or.inl (Or.inr ?_)
    simp [hne, ho, hn]

/-- Witness for C3 at a pair whose old return type is absent and new
return type is the string "void": a return-type change is emitted. -/
theorem compareAPIs_fixed_order_witness :
    elNoRet.returnType = none ∧ elVoidRet.returnType = some "void" ∧
    ∃ c ∈ compareAPIs elNoRet elVoidRet, c.type = ChangeKind.returnTypeKind ∧
      c.description = "Return type changed from \"void\" to \"void\"" :=
  ⟨rfl, rfl, (compareAPIs_fixed_order elNoRet elVoidRet).2.2.2.2.2.2 rfl rfl⟩

theorem mapGet_append_singleton (l : List APIElement) (a : APIElement) (s : String) :
    mapGet (l ++ [a]) s = if a.name = s then some a else mapGet l s := by
  simp [mapGet, List.foldl_append]


theorem mapGet_eq_none_iff (l : List APIElement) (s : String) :
    mapGet l s = none ↔ ∀ a ∈ l, a.name ≠ s := by
  induction l using List.reverseRecOn with
  | nil => simp [mapGet]
  | append_singleton t a ih =>
    rw [mapGet_append_singleton]
    by_cases h : a.name = s
    · simp [h]
      exact ⟨a, Or.inr rfl, h⟩
    · simp [h, ih]
      constructor
      · rintro hall b (hb | rfl)
        · exact hall b hb
        · exact h
      · intro hall b hb
        exact hall b (Or.inl hb)

theorem mapGet_name (l : List APIElement) (s : String) (a : APIElement)
    (h : mapGet l s = some a) : a.name = s := by
  induction l using List.reverseRecOn with
  | nil => simp [mapGet] at h
  | append_singleton t b ih =>
    rw [mapGet_append_singleton] at h
    by_cases hb : b.name = s
    · simp [hb] at h
      rw [← h]
      exact hb
    · simp [hb] at h
      exact ih h

theorem mapGet_mem (l : List APIElement) (s : String) (a : APIElement)
    (h : mapGet l s = some a) : a ∈ l := by
  induction l using List.reverseRecOn with
  | nil => simp [mapGet] at h
  | append_singleton t b ih =>
    rw [mapGet_append_singleton] at h
    by_cases hb : b.name = s
    · simp [hb] at h
      simp [← h]
    · simp [hb] at h
      exact List.mem_append_left _ (ih h)

theorem mapGet_isSome_iff (l : List APIElement) (s : String) :
    (∃ a, mapGet l s = some a) ↔ ∃ a ∈ l, a.name = s := by
  constructor
  · rintro ⟨a, ha⟩
    exact ⟨a, mapGet_mem l s a ha, mapGet_name l s a ha⟩
  · rintro ⟨a, ha, hname⟩
    cases h : mapGet l s with
    | some b => exact ⟨b, rfl⟩
    | none => exact absurd hname ((mapGet_eq_none_iff l s).mp h a ha)

theorem filterMap_map_name_sublist {α β γ : Type} (l : List α) (g : α → Option β)
    (k : β → γ) (m : α → γ) (h : ∀ a b, g a = some b → k b = m a) :
    ((l.filterMap g).map k).Sublist (l.map m) := by
  induction l with
  | nil => simp
  | cons a t ih =>
    cases hg : g a with
    | none =>
      simp only [List.filterMap_cons, hg, List.map_cons]
      exact ih.cons _
    | some b =>
      simp only [List.filterMap_cons, hg, List.map_cons, h a b hg]
      exact ih.cons₂ _

theorem mem_added_names (oldApis newApis : List APIElement) (s : String) :
    s ∈ (analyze oldApis newApis).added.map (fun a => a.name) ↔
      ((∃ a ∈ newApis, a.name = s) ∧ ¬ ∃ a ∈ oldApis, a.name = s) := by
  simp only [analyze, List.mem_map, List.mem_filter, Option.isNone_iff_eq_none]
  constructor
  · rintro ⟨a, ⟨ha, hcond⟩, rfl⟩
    rw [mapGet_eq_none_iff] at hcond
    exact ⟨⟨a, ha, rfl⟩, by rintro ⟨b, hb, hbs⟩; exact hcond b hb hbs⟩
  · rintro ⟨⟨a, ha, rfl⟩, hno⟩
    refine ⟨a, ⟨ha, ?_⟩, rfl⟩
    rw [mapGet_eq_none_iff]
    intro b hb hbs
    exact hno ⟨b, hb, hbs⟩

theorem mem_removed_names (oldApis newApis : List APIElement) (s : String) :
    s ∈ (analyze oldApis newApis).removed.map (fun a => a.name) ↔
      ((∃ a ∈ oldApis, a.name = s) ∧ ¬ ∃ a ∈ newApis, a.name = s) := by
  simp only [analyze, List.mem_map, List.mem_filter, Option.isNone_iff_eq_none]
  constructor
  · rintro ⟨a, ⟨ha, hcond⟩, rfl⟩
    rw [mapGet_eq_none_iff] at hcond
    exact ⟨⟨a, ha, rfl⟩, by rintro ⟨b, hb, hbs⟩; exact hcond b hb hbs⟩
  · rintro ⟨⟨a, ha, rfl⟩, hno⟩
    refine ⟨a, ⟨ha, ?_⟩, rfl⟩
    rw [mapGet_eq_none_iff]
    intro b hb hbs
    exact hno ⟨b, hb, hbs⟩

theorem mem_modified_names (oldApis newApis : List APIElement) (s : String) :
    s ∈ (analyze oldApis newApis).modified.map (fun m => m.old.name) ↔
      ∃ a ∈ oldApis, a.name = s ∧
        ∃ b, mapGet newApis s = some b ∧ (compareAPIs a b).isEmpty = false := by
  simp only [analyze, List.mem_map, List.mem_filterMap]
  constructor
  · rintro ⟨x, ⟨a, ha, hx⟩, rfl⟩
    cases hm : mapGet newApis a.name with
    | none => rw [hm] at hx; simp at hx
    | some b =>
      rw [hm] at hx
      by_cases he : (compareAPIs a b).isEmpty
      · simp [he] at hx
      · simp [he] at hx
        refine ⟨a, ha, ?_, b, ?_, ?_⟩
        · rw [← hx]
        · rw [← hx]; exact hm
        · simp [he]
  · rintro ⟨a, ha, rfl, b, hm, he⟩
    refine ⟨⟨a, b, compareAPIs a b⟩, ⟨a, ha, ?_⟩, rfl⟩
    rw [hm]
    simp [he]

theorem mem_unchanged_names (oldApis newApis : List APIElement) (s : String) :
    s ∈ (analyze oldApis newApis).unchanged.map (fun a => a.name) ↔
      ∃ a ∈ oldApis, a.name = s ∧
        ∃ b, mapGet newApis s = some b ∧ (compareAPIs a b).isEmpty = true := by
  simp only [analyze, List.mem_map, List.mem_filterMap]
  constructor
  · rintro ⟨x, ⟨a, ha, hx⟩, rfl⟩
    cases hm : mapGet newApis a.name with
    | none => rw [hm] at hx; simp at hx
    | some b =>
      rw [hm] at hx
      by_cases he : (compareAPIs a b).isEmpty
      · simp [he] at hx
        subst hx
        exact ⟨a, ha, rfl, b, hm, he⟩
      · simp [he] at hx
  · rintro ⟨a, ha, rfl, b, hm, he⟩
    refine ⟨a, ⟨a, ha, ?_⟩, rfl⟩
    rw [hm]
    simp [he]

/-- C2: when names are unique within each collection, `analyze`
partitions the names exhaustively and disjointly: every name of the
old or new collection appears in exactly one bucket, and no bucket
repeats a name. -/
theorem analyze_partition (oldApis newApis : List APIElement)
    (h1 : (oldApis.map (fun a => a.name)).Nodup)
    (h2 : (newApis.map (fun a => a.name)).Nodup) :
    (diffNames (analyze oldApis newApis)).Nodup ∧
    ∀ s, s ∈ diffNames (analyze oldApis newApis) ↔
      (s ∈ oldApis.map (fun a => a.name) ∨ s ∈ newApis.map (fun a => a.name)) := by
  have hAdd : ∀ s, s ∈ (analyze oldApis newApis).added.map (fun a => a.name) ↔
      ((∃ a ∈ newApis, a.name = s) ∧ ¬ ∃ a ∈ oldApis, a.name = s) :=
    mem_added_names oldApis newApis
  have hRem : ∀ s, s ∈ (analyze oldApis newApis).removed.map (fun a => a.name) ↔
      ((∃ a ∈ oldApis, a.name = s) ∧ ¬ ∃ a ∈ newApis, a.name = s) :=
    mem_removed_names oldApis newApis
  have hMod := mem_modified_names oldApis newApis
  have hUnch := mem_unchanged_names oldApis newApis
  have hModOld : ∀ s, s ∈ (analyze oldApis newApis).modified.map (fun m => m.old.name) →
      (∃ a ∈ oldApis, a.name = s) ∧ (∃ a ∈ newApis, a.name = s) := by
    intro s hs
    obtain ⟨a, ha, rfl, b, hm, _⟩ := (hMod s).mp hs
    exact ⟨⟨a, ha, rfl⟩, (mapGet_isSome_iff newApis a.name).mp ⟨b, hm⟩⟩
  have hUnchOld : ∀ s, s ∈ (analyze oldApis newApis).unchanged.map (fun a => a.name) →
      (∃ a ∈ oldApis, a.name = s) ∧ (∃ a ∈ newApis, a.name = s) := by
    intro s hs
    obtain ⟨a, ha, rfl, b, hm, _⟩ := (hUnch s).mp hs
    exact ⟨⟨a, ha, rfl⟩, (mapGet_isSome_iff newApis a.name).mp ⟨b, hm⟩⟩
  constructor
  · -- Nodup of the concatenation of the four name lists
    have nAdd : ((analyze oldApis newApis).added.map (fun a => a.name)).Nodup := by
      have : ((analyze oldApis newApis).added.map (fun a => a.name)).Sublist
          (newApis.map (fun a => a.name)) :=
        List.Sublist.map _ (List.filter_sublist _)
      exact this.nodup h2
    have nRem : ((analyze oldApis newApis).removed.map (fun a => a.name)).Nodup := by
      have : ((analyze oldApis newApis).removed.map (fun a => a.name)).Sublist
          (oldApis.map (fun a => a.name)) :=
        List.Sublist.map _ (List.filter_sublist _)
      exact this.nodup h1
    have nMod : ((analyze oldApis newApis).modified.map (fun m => m.old.name)).Nodup := by
      have : ((analyze oldApis newApis).modified.map (fun m => m.old.name)).Sublist
          (oldApis.map (fun a => a.name)) := by
        apply filterMap_map_name_sublist
        intro a m hm
        cases hg : mapGet newApis a.name with
        | none => rw [hg] at hm; simp at hm
        | some b =>
          rw [hg] at hm
          by_cases he : (compareAPIs a b).isEmpty
          · simp [he] at hm
          · simp [he] at hm
            rw [← hm]
      exact this.nodup h1
    have nUnch : ((analyze oldApis newApis).unchanged.map (fun a => a.name)).Nodup := by
      have : ((analyze oldApis newApis).unchanged.map (fun a => a.name)).Sublist
          (oldApis.map (fun a => a.name)) := by
        apply filterMap_map_name_sublist
        intro a b hb
        cases hg : mapGet newApis a.name with
        | none => rw [hg] at hb; simp at hb
        | some c =>
          rw [hg] at hb
          by_cases he : (compareAPIs a c).isEmpty
          · simp [he] at hb
            rw [hb]
          · simp [he] at hb
      exact this.nodup h1
    have dModUnch : ∀ s, s ∈ (analyze oldApis newApis).modified.map (fun m => m.old.name) →
        s ∈ (analyze oldApis newApis).unchanged.map (fun a => a.name) → False := by
      intro s hm hu
      obtain ⟨a1, ha1, hn1, b1, hb1, he1⟩ := (hMod s).mp hm
      obtain ⟨a2, ha2, hn2, b2, hb2, he2⟩ := (hUnch s).mp hu
      have hinj := List.inj_on_of_nodup_map h1 ha1 ha2 (by rw [hn1, hn2])
      subst hinj
      rw [hb1] at hb2
      injection hb2 with hb
      subst hb
      rw [he1] at he2
      exact Bool.false_ne_true he2
    unfold diffNames
    rw [List.append_assoc, List.append_assoc, List.nodup_append]
    refine ⟨nAdd, ?_, ?_⟩
    · rw [List.nodup_append]
      refine ⟨nRem, ?_, ?_⟩
      · rw [List.nodup_append]
        exact ⟨nMod, nUnch, fun s hm hu => dModUnch s hm hu⟩
      · intro s hs hs'
        have hA := ((hRem s).mp hs).2
        rcases List.mem_append.mp hs' with h' | h'
        · exact hA (hModOld s h').2
        · exact hA (hUnchOld s h').2
    · intro s hs hs'
      have hA := ((hAdd s).mp hs).2
      rcases List.mem_append.mp hs' with h' | h'
      · exact hA ((hRem s).mp h').1
      · rcases List.mem_append.mp h' with h'' | h''
        · exact hA (hModOld s h'').1
        · exact hA (hUnchOld s h'').1
  · intro s
    unfold diffNames
    simp only [List.mem_append]
    constructor
    · rintro (((h | h) | h) | h)
      · exact Or.inr (by obtain ⟨⟨a, ha, rfl⟩, _⟩ := (hAdd s).mp h; exact List.mem_map.mpr ⟨a, ha, rfl⟩)
      · exact Or.inl (by obtain ⟨⟨a, ha, rfl⟩, _⟩ := (hRem s).mp h; exact List.mem_map.mpr ⟨a, ha, rfl⟩)
      · exact Or.inl (by obtain ⟨a, ha, rfl⟩ := (hModOld s h).1; exact List.mem_map.mpr ⟨a, ha, rfl⟩)
      · exact Or.inl (by obtain ⟨a, ha, rfl⟩ := (hUnchOld s h).1; exact List.mem_map.mpr ⟨a, ha, rfl⟩)
    · intro h
      have hA : (∃ a ∈ oldApis, a.name = s) ∨ ∃ a ∈ newApis, a.name = s := by
        rcases h with h | h
        · exact Or.inl (by obtain ⟨a, ha, rfl⟩ := List.mem_map.mp h; exact ⟨a, ha, rfl⟩)
        · exact Or.inr (by obtain ⟨a, ha, rfl⟩ := List.mem_map.mp h; exact ⟨a, ha, rfl⟩)
      by_cases hOld : ∃ a ∈ oldApis, a.name = s
      · by_cases hNew : ∃ a ∈ newApis, a.name = s
        · -- present on both sides: modified or unchanged
          obtain ⟨a, ha, rfl⟩ := hOld
          obtain ⟨b, hb⟩ := (mapGet_isSome_iff newApis a.name).mpr hNew
          by_cases he : (compareAPIs a b).isEmpty
          · refine Or.inr ((hUnch a.name).mpr ⟨a, ha, rfl, b, hb, he⟩)
          · refine Or.inl (Or.inr ((hMod a.name).mpr ⟨a, ha, rfl, b, hb, ?_⟩))
            simp [he]
        · exact Or.inl (Or.inl (Or.inr ((hRem s).mpr ⟨hOld, hNew⟩)))
      · rcases hA with h' | h'
        · exact absurd h' hOld
        · exact Or.inl (Or.inl (Or.inl ((hAdd s).mpr ⟨h', hOld⟩)))

/-- Witness for C2 at two concrete one-element collections with
distinct names. -/
theorem analyze_partition_witness :
    ([elFoo].map (fun a => a.name)).Nodup ∧ ([elBar].map (fun a => a.name)).Nodup ∧
    ((diffNames (analyze [elFoo] [elBar])).Nodup ∧
      ∀ s, s ∈ diffNames (analyze [elFoo] [elBar]) ↔
        (s ∈ [elFoo].map (fun a => a.name) ∨ s ∈ [elBar].map (fun a => a.name))) :=
  ⟨by decide, by decide,
    analyze_partition [elFoo] [elBar] (by decide) (by decide)⟩

/-- C4 counterexample: permuting the new collection (which contains
two distinct elements with the same name) changes the severity that
`calculateSeverity` computes from the `analyze` result, so the claim
fails as stated for arbitrary collections. -/
theorem analyze_perm_counterexample :
    List.Perm [elA1, elA2] [elA2, elA1] ∧
    calculateSeverity (analyze [elA1] [elA1, elA2]) ≠
      calculateSeverity (analyze [elA1] [elA2, elA1]) :=
  ⟨List.Perm.swap elA2 elA1 [], by decide⟩

theorem mapGet_isNone_perm (l1 l2 : List APIElement) (h : List.Perm l2 l1) (s : String) :
    (mapGet l2 s).isNone = (mapGet l1 s).isNone := by
  have hiff : mapGet l2 s = none ↔ mapGet l1 s = none := by
    rw [mapGet_eq_none_iff, mapGet_eq_none_iff]
    constructor
    · intro hall a ha
      exact hall a (h.mem_iff.mpr ha)
    · intro hall a ha
      exact hall a (h.mem_iff.mp ha)
  cases h2 : mapGet l2 s <;> cases h1 : mapGet l1 s <;> simp_all

theorem mapGet_perm_of_nodup (l1 l2 : List APIElement) (h : List.Perm l2 l1)
    (hnd : (l1.map (fun a => a.name)).Nodup) (s : String) :
    mapGet l2 s = mapGet l1 s := by
  cases h1 : mapGet l1 s with
  | none =>
    rw [mapGet_eq_none_iff] at h1 ⊢
    intro a ha
    exact h1 a (h.mem_iff.mp ha)
  | some b =>
    have hb : b ∈ l1 := mapGet_mem l1 s b h1
    have hbs : b.name = s := mapGet_name l1 s b h1
    cases h2 : mapGet l2 s with
    | none =>
      rw [mapGet_eq_none_iff] at h2
      exact absurd hbs (h2 b (h.mem_iff.mpr hb))
    | some c =>
      have hc : c ∈ l1 := h.mem_iff.mp (mapGet_mem l2 s c h2)
      have hcs : c.name = s := mapGet_name l2 s c h2
      have : c = b := List.inj_on_of_nodup_map hnd hc hb (by rw [hcs, hbs])
      rw [this]

theorem perm_any_eq {α : Type} (l1 l2 : List α) (h : List.Perm l1 l2) (f : α → Bool) :
    l1.any f = l2.any f := by
  induction h with
  | nil => rfl
  | cons a _ ih => simp [ih]
  | swap a b t => simp [Bool.or_left_comm]
  | trans _ _ ih1 ih2 => rw [ih1, ih2]

theorem calculateSeverity_perm_congr (d1 d2 : APIDiff)
    (ha : List.Perm d1.added d2.added) (hr : List.Perm d1.removed d2.removed)
    (hm : List.Perm d1.modified d2.modified) :
    calculateSeverity d1 = calculateSeverity d2 := by
  unfold calculateSeverity
  rw [perm_any_eq _ _ ha, perm_any_eq _ _ hr, perm_any_eq _ _ hm, perm_any_eq _ _ hm,
    perm_any_eq _ _ hm]

/-- C4 amended: when element names are unique within the new
collection, permuting the input arrays preserves each of the four
buckets of the `analyze` result up to reordering, and preserves the
computed severity exactly.  (As stated over arbitrary collections the
claim is false: with duplicate names, permutation changes which
duplicate wins the last-write-wins lookup, and even the severity can
change; and bucket arrays are in any case only preserved up to
order.) -/
theorem analyze_perm_invariant (oldApis newApis oldApis2 newApis2 : List APIElement)
    (ho : List.Perm oldApis2 oldApis) (hn : List.Perm newApis2 newApis)
    (hnd : (newApis.map (fun a => a.name)).Nodup) :
    List.Perm (analyze oldApis2 newApis2).added (analyze oldApis newApis).added ∧
    List.Perm (analyze oldApis2 newApis2).removed (analyze oldApis newApis).removed ∧
    List.Perm (analyze oldApis2 newApis2).modified (analyze oldApis newApis).modified ∧
    List.Perm (analyze oldApis2 newApis2).unchanged (analyze oldApis newApis).unchanged ∧
    calculateSeverity (analyze oldApis2 newApis2) =
      calculateSeverity (analyze oldApis newApis) := by
  have hg : ∀ s, mapGet newApis2 s = mapGet newApis s :=
    mapGet_perm_of_nodup newApis newApis2 hn hnd
  have hAdd : List.Perm (analyze oldApis2 newApis2).added (analyze oldApis newApis).added := by
    show List.Perm (newApis2.filter (fun a => (mapGet oldApis2 a.name).isNone))
      (newApis.filter (fun a => (mapGet oldApis a.name).isNone))
    have : (newApis2.filter (fun a => (mapGet oldApis2 a.name).isNone)) =
        (newApis2.filter (fun a => (mapGet oldApis a.name).isNone)) := by
      apply List.filter_congr
      intro a _
      exact mapGet_isNone_perm oldApis oldApis2 ho a.name
    rw [this]
    exact hn.filter _
  have hRem : List.Perm (analyze oldApis2 newApis2).removed
      (analyze oldApis newApis).removed := by
    show List.Perm (oldApis2.filter (fun a => (mapGet newApis2 a.name).isNone))
      (oldApis.filter (fun a => (mapGet newApis a.name).isNone))
    have : (oldApis2.filter (fun a => (mapGet newApis2 a.name).isNone)) =
        (oldApis2.filter (fun a => (mapGet newApis a.name).isNone)) := by
      apply List.filter_congr
      intro a _
      rw [hg a.name]
    rw [this]
    exact ho.filter _
  have hfun1 : (fun o => match mapGet newApis2 o.name with
      | none => none
      | some n =>
        let changes := compareAPIs o n
        if changes.isEmpty then none else some (ModifiedAPI.mk o n changes)) =
      (fun o => match mapGet newApis o.name with
      | none => none
      | some n =>
        let changes := compareAPIs o n
        if changes.isEmpty then none else some (ModifiedAPI.mk o n changes)) := by
    funext a
    rw [hg a.name]
  have hfun2 : (fun o => match mapGet newApis2 o.name with
      | none => none
      | some n => if (compareAPIs o n).isEmpty then some o else none) =
      (fun o => match mapGet newApis o.name with
      | none => none
      | some n => if (compareAPIs o n).isEmpty then some o else none) := by
    funext a
    rw [hg a.name]
  have hMod : List.Perm (analyze oldApis2 newApis2).modified
      (analyze oldApis newApis).modified := by
    show List.Perm (oldApis2.filterMap _) (oldApis.filterMap _)
    rw [hfun1]
    exact ho.filterMap _
  have hUnch : List.Perm (analyze oldApis2 newApis2).unchanged
      (analyze oldApis newApis).unchanged := by
    show List.Perm (oldApis2.filterMap _) (oldApis.filterMap _)
    rw [hfun2]
    exact ho.filterMap _
  exact ⟨hAdd, hRem, hMod, hUnch, calculateSeverity_perm_congr _ _ hAdd hRem hMod⟩

theorem drop_head_eq_get (l : List Char) : ∀ i, (l.drop i).head? = l.get? i := by
  induction l with
  | nil => intro i; cases i <;> rfl
  | cons a t ih =>
    intro i
    cases i with
    | zero => rfl
    | succ j => simpa using ih j

theorem boundary_left (pre rest : List Char) :
    boundaryAt (pre ++ rest) pre.length = (lastWord pre != headWord rest) := by
  have hr : wordAt (pre ++ rest) pre.length = headWord rest := by
    unfold wordAt headWord
    rw [← drop_head_eq_get, List.drop_left]
  have hl : (if pre.length = 0 then false else wordAt (pre ++ rest) (pre.length - 1)) =
      lastWord pre := by
    cases pre with
    | nil => simp [lastWord]
    | cons a t =>
      have hne : (a :: t).length ≠ 0 := by simp
      rw [if_neg hne]
      unfold wordAt lastWord
      have hlt : (a :: t).length - 1 < (a :: t).length := by
        simp
      rw [List.get?_append hlt, ← List.getLast?_eq_get?]
  unfold boundaryAt
  rw [hr, hl]

theorem hasWordMatch_iff (name line : List Char) :
    hasWordMatch name line = true ↔
      ∃ pre post, line = pre ++ name ++ post ∧
        (lastWord pre != headWord (name ++ post)) = true ∧
        (lastWord (pre ++ name) != headWord post) = true := by
  unfold hasWordMatch
  rw [List.any_eq_true]
  constructor
  · rintro ⟨i, hi, hmatch⟩
    rw [List.mem_range] at hi
    unfold matchesAt at hmatch
    simp only [Bool.and_eq_true, decide_eq_true_eq] at hmatch
    obtain ⟨⟨htake, hb1⟩, hb2⟩ := hmatch
    have hile : i ≤ line.length := Nat.lt_succ_iff.mp hi
    have hdrop : line.drop i = name ++ line.drop (i + name.length) := by
      conv_lhs => rw [← List.take_append_drop name.length (line.drop i)]
      rw [htake, List.drop_drop, Nat.add_comm]
    have heq : line.take i ++ (name ++ line.drop (i + name.length)) = line := by
      have h0 : line.take i ++ line.drop i = line := List.take_append_drop i line
      rw [hdrop] at h0
      exact h0
    have hlen : (line.take i).length = i := by
      rw [List.length_take]
      exact Nat.min_eq_left hile
    have heq2 : (line.take i ++ name) ++ line.drop (i + name.length) = line := by
      rw [List.append_assoc]
      exact heq
    refine ⟨line.take i, line.drop (i + name.length), ?_, ?_, ?_⟩
    · rw [List.append_assoc]
      exact heq.symm
    · have hb := boundary_left (line.take i) (name ++ line.drop (i + name.length))
      rw [hlen, heq] at hb
      rw [← hb]
      exact hb1
    · have hb := boundary_left (line.take i ++ name) (line.drop (i + name.length))
      rw [List.length_append, hlen, heq2] at hb
      rw [← hb]
      exact hb2
  · rintro ⟨pre, post, hline, hb1, hb2⟩
    refine ⟨pre.length, ?_, ?_⟩
    · rw [List.mem_range]
      have : line.length = pre.length + (name.length + post.length) := by
        rw [hline]
        simp [List.length_append]
      omega
    · unfold matchesAt
      simp only [Bool.and_eq_true, decide_eq_true_eq]
      refine ⟨⟨?_, ?_⟩, ?_⟩
      · rw [hline, List.append_assoc, List.drop_left]
        exact List.take_left _ _
      · rw [hline, List.append_assoc, boundary_left]
        exact hb1
      · have hlen2 : pre.length + name.length = (pre ++ name).length :=
          (List.length_append _ _).symm
        rw [hline, hlen2, boundary_left]
        exact hb2

/-- C5: every reference emitted by findReferences comes from an
indexed file with a whole-word match of the element's name on the
carried 1-based line, with the one-line-before through one-line-after
context window and referenceType "name"; a whole-word match is
exactly a decomposition of the line around the name with a word
boundary on each side (so the name is never matched as a substring of
a longer identifier); and the search for getUser on a line whose only
occurrence of that text is inside getUserById produces no
reference. -/
theorem findReferences_word_boundary (index : List (String × List Char))
    (el : APIElement) (name line : List Char) :
    (∀ r ∈ findReferences index el,
      r.referenceType = "name" ∧
      ∃ p c, (p, c) ∈ index ∧ r.filePath = p ∧
        ∃ i, i < (splitLines c).length ∧ r.lineNumber = i + 1 ∧
          hasWordMatch el.name.data ((splitLines c).getD i []) = true ∧
          r.context = lineContext (splitLines c) i) ∧
    (hasWordMatch name line = true ↔
      ∃ pre post, line = pre ++ name ++ post ∧
        (lastWord pre != headWord (name ++ post)) = true ∧
        (lastWord (pre ++ name) != headWord post) = true) ∧
    findReferences [("doc.md", String.data "const u = getUserById(1);")] elGetUser = [] := by
  refine ⟨?_, hasWordMatch_iff name line, by decide⟩
  intro r hr
  unfold findReferences at hr
  rw [List.mem_flatMap] at hr
  obtain ⟨f, hf, hrf⟩ := hr
  unfold findReferencesFile at hrf
  rw [List.mem_filterMap] at hrf
  obtain ⟨i, hi, hcond⟩ := hrf
  rw [List.mem_range] at hi
  by_cases hm : hasWordMatch el.name.data ((splitLines f.2).getD i []) = true
  · rw [if_pos hm] at hcond
    have hre := Option.some.inj hcond
    refine ⟨by rw [← hre], f.1, f.2, by simpa using hf, by rw [← hre], i, hi,
      by rw [← hre], hm, by rw [← hre]⟩
  · rw [if_neg hm] at hcond
    exact absurd hcond (by simp)

/-- Witness for C5 at a one-file index containing a genuine
whole-word occurrence of getUser. -/
theorem findReferences_word_boundary_witness :
    (DocReference.mk "a.md" 1 (String.data "getUser x") "name") ∈
      findReferences [("a.md", String.data "getUser x")] elGetUser ∧
    (DocReference.mk "a.md" 1 (String.data "getUser x") "name").referenceType = "name" :=
  ⟨by decide,
    ((findReferences_word_boundary [("a.md", String.data "getUser x")] elGetUser [] []).1
      (DocReference.mk "a.md" 1 (String.data "getUser x") "name") (by decide)).1⟩

theorem processAPI_missingDocs (index : List (String × List Char))
    (st : AffectedDocumentation) (api : APIElement) :
    (processAPI index st api).missingDocs = st.missingDocs ++
      (if (findReferences index api).isEmpty && (findCodeExamples index api).isEmpty &&
          api.isPublic then [api] else []) := by
  unfold processAPI
  by_cases h : ((findReferences index api).isEmpty && (findCodeExamples index api).isEmpty &&
      api.isPublic) = true
  · simp [h]
  · simp [h]

theorem processAPI_totalReferences (index : List (String × List Char))
    (st : AffectedDocumentation) (api : APIElement) :
    (processAPI index st api).totalReferences =
      st.totalReferences + (findReferences index api).length := by
  unfold processAPI
  by_cases h : ((findReferences index api).isEmpty && (findCodeExamples index api).isEmpty &&
      api.isPublic) = true
  · have h' := h
    simp only [Bool.and_eq_true] at h'
    obtain ⟨⟨h1, h2⟩, h3⟩ := h'
    rw [List.isEmpty_iff] at h1 h2
    simp [h, h1, h2, h3]
  · simp [h]

theorem foldl_processAPI_missingDocs (index : List (String × List Char))
    (L : List APIElement) :
    ∀ st : AffectedDocumentation,
      (L.foldl (processAPI index) st).missingDocs = st.missingDocs ++
        L.filter (fun api => (findReferences index api).isEmpty &&
          (findCodeExamples index api).isEmpty && api.isPublic) := by
  induction L with
  | nil => intro st; simp
  | cons a t ih =>
    intro st
    rw [List.foldl_cons, ih, processAPI_missingDocs, List.filter_cons]
    by_cases h : ((findReferences index a).isEmpty && (findCodeExamples index a).isEmpty &&
        a.isPublic) = true
    · simp [h]
    · simp [h]

theorem foldl_processAPI_totalReferences (index : List (String × List Char))
    (L : List APIElement) :
    ∀ st : AffectedDocumentation,
      (L.foldl (processAPI index) st).totalReferences = st.totalReferences +
        (L.map (fun api => (findReferences index api).length)).sum := by
  induction L with
  | nil => intro st; simp
  | cons a t ih =>
    intro st
    rw [List.foldl_cons, ih, processAPI_totalReferences]
    simp [Nat.add_assoc]

theorem pushReference_nonempty (index : List (String × List Char))
    (files : List (String × DocFile)) (r : DocReference)
    (h : ∀ e ∈ files, 0 < e.2.references.length + e.2.examples.length) :
    ∀ e ∈ pushReference index files r,
      0 < e.2.references.length + e.2.examples.length := by
  unfold pushReference
  by_cases hc : files.any (fun e => e.1 == r.filePath) = true
  · rw [if_pos hc]
    intro e he
    rw [List.mem_map] at he
    obtain ⟨e0, he0, hmk⟩ := he
    by_cases hp : (e0.1 == r.filePath) = true
    · rw [if_pos hp] at hmk
      rw [← hmk]
      simp
    · rw [if_neg hp] at hmk
      rw [← hmk]
      exact h e0 he0
  · rw [if_neg hc]
    intro e he
    rw [List.mem_append] at he
    rcases he with he | he
    · exact h e he
    · rw [List.mem_singleton] at he
      rw [he]
      simp

theorem pushExample_nonempty (index : List (String × List Char))
    (files : List (String × DocFile)) (x : CodeExample)
    (h : ∀ e ∈ files, 0 < e.2.references.length + e.2.examples.length) :
    ∀ e ∈ pushExample index files x,
      0 < e.2.references.length + e.2.examples.length := by
  unfold pushExample
  by_cases hc : files.any (fun e => e.1 == x.filePath) = true
  · rw [if_pos hc]
    intro e he
    rw [List.mem_map] at he
    obtain ⟨e0, he0, hmk⟩ := he
    by_cases hp : (e0.1 == x.filePath) = true
    · rw [if_pos hp] at hmk
      rw [← hmk]
      simp only [List.length_append, List.length_singleton]
      omega
    · rw [if_neg hp] at hmk
      rw [← hmk]
      exact h e0 he0
  · rw [if_neg hc]
    intro e he
    rw [List.mem_append] at he
    rcases he with he | he
    · exact h e he
    · rw [List.mem_singleton] at he
      rw [he]
      simp

theorem foldl_pushReference_nonempty (index : List (String × List Char))
    (rs : List DocReference) :
    ∀ files : List (String × DocFile),
      (∀ e ∈ files, 0 < e.2.references.length + e.2.examples.length) →
      ∀ e ∈ rs.foldl (pushReference index) files,
        0 < e.2.references.length + e.2.examples.length := by
  induction rs with
  | nil => intro files h; exact h
  | cons r t ih =>
    intro files h
    rw [List.foldl_cons]
    exact ih _ (pushReference_nonempty index files r h)

theorem foldl_pushExample_nonempty (index : List (String × List Char))
    (xs : List CodeExample) :
    ∀ files : List (String × DocFile),
      (∀ e ∈ files, 0 < e.2.references.length + e.2.examples.length) →
      ∀ e ∈ xs.foldl (pushExample index) files,
        0 < e.2.references.length + e.2.examples.length := by
  induction xs with
  | nil => intro files h; exact h
  | cons x t ih =>
    intro files h
    rw [List.foldl_cons]
    exact ih _ (pushExample_nonempty index files x h)

theorem processAPI_files_nonempty (index : List (String × List Char))
    (st : AffectedDocumentation) (api : APIElement)
    (h : ∀ e ∈ st.files, 0 < e.2.references.length + e.2.examples.length) :
    ∀ e ∈ (processAPI index st api).files,
      0 < e.2.references.length + e.2.examples.length := by
  unfold processAPI
  by_cases hc : ((findReferences index api).isEmpty && (findCodeExamples index api).isEmpty &&
      api.isPublic) = true
  · simp only [hc, if_true]
    exact h
  · simp only [hc, if_false]
    exact foldl_pushExample_nonempty index _ _
      (foldl_pushReference_nonempty index _ _ h)

theorem foldl_processAPI_files_nonempty (index : List (String × List Char))
    (L : List APIElement) :
    ∀ st : AffectedDocumentation,
      (∀ e ∈ st.files, 0 < e.2.references.length + e.2.examples.length) →
      ∀ e ∈ (L.foldl (processAPI index) st).files,
        0 < e.2.references.length + e.2.examples.length := by
  induction L with
  | nil => intro st h; exact h
  | cons a t ih =>
    intro st h
    rw [List.foldl_cons]
    exact ih _ (processAPI_files_nonempty index st a h)

theorem find?_append_singleton {α : Type} (l : List α) (a : α) (q : α → Bool) :
    (l ++ [a]).find? q = (match l.find? q with
      | some x => some x
      | none => if q a then some a else none) := by
  induction l with
  | nil =>
    by_cases h : q a = true <;> simp [List.find?, h]
  | cons b t ih =>
    by_cases hb : q b = true <;> simp [List.find?, hb, ih]

theorem find?_key_map_update (l : List (String × DocFile)) (q : String)
    (g : String × DocFile → DocFile) (p : String) :
    (l.map (fun e => if e.1 == q then (e.1, g e) else e)).find? (fun e => e.1 == p) =
      (if q == p then
        (l.find? (fun e => e.1 == p)).map (fun e => (e.1, g e))
      else l.find? (fun e => e.1 == p)) := by
  induction l with
  | nil => by_cases h : (q == p) = true <;> simp [List.find?, h]
  | cons e t ih =>
    simp only [List.map_cons]
    by_cases hep : (e.1 == p) = true
    · have hpos1 : ((if e.1 == q then (e.1, g e) else e).1 == p) = true := by
        by_cases heq : (e.1 == q) = true
        · rw [if_pos heq]
          exact hep
        · rw [if_neg heq]
          exact hep
      have e1 : List.find? (fun e => e.1 == p)
          ((if e.1 == q then (e.1, g e) else e) ::
            t.map (fun e => if e.1 == q then (e.1, g e) else e)) =
          some (if e.1 == q then (e.1, g e) else e) :=
        List.find?_cons_of_pos _ hpos1
      have e2 : List.find? (fun e => e.1 == p) (e :: t) = some e :=
        List.find?_cons_of_pos _ hep
      rw [e1, e2]
      by_cases hqp : (q == p) = true
      · rw [if_pos hqp]
        have h2 : e.1 = p := eq_of_beq hep
        have h3 : q = p := eq_of_beq hqp
        have heq2 : (e.1 == q) = true := beq_iff_eq.mpr (by rw [h2, h3])
        rw [if_pos heq2]
        rfl
      · rw [if_neg hqp]
        have h2 : e.1 = p := eq_of_beq hep
        have heq2 : (e.1 == q) = false := by
          apply beq_eq_false_iff_ne.mpr
          intro hbad
          exact hqp (beq_iff_eq.mpr (by rw [← hbad, h2]))
        simp only [heq2, Bool.false_eq_true, if_false]
    · have hneg1 : ¬((if e.1 == q then (e.1, g e) else e).1 == p) = true := by
        by_cases heq : (e.1 == q) = true
        · rw [if_pos heq]
          exact hep
        · rw [if_neg heq]
          exact hep
      have e1 : List.find? (fun e => e.1 == p)
          ((if e.1 == q then (e.1, g e) else e) ::
            t.map (fun e => if e.1 == q then (e.1, g e) else e)) =
          List.find? (fun e => e.1 == p)
            (t.map (fun e => if e.1 == q then (e.1, g e) else e)) :=
        List.find?_cons_of_neg _ hneg1
      have e2 : List.find? (fun e => e.1 == p) (e :: t) =
          List.find? (fun e => e.1 == p) t :=
        List.find?_cons_of_neg _ hep
      rw [e1, e2]
      exact ih

theorem filesLookup_pushReference (index : List (String × List Char))
    (files : List (String × DocFile)) (r : DocReference) (p : String) :
    filesLookup (pushReference index files r) p =
      (if r.filePath == p then
        (match filesLookup files p with
        | some df =>
          some (DocFile.mk df.path df.content (df.references ++ [r]) df.examples)
        | none => some (DocFile.mk r.filePath (indexContent index r.filePath) [r] []))
      else filesLookup files p) := by
  unfold pushReference filesLookup
  by_cases hc : files.any (fun e => e.1 == r.filePath) = true
  · rw [if_pos hc, find?_key_map_update]
    by_cases hp : (r.filePath == p) = true
    · rw [if_pos hp, if_pos hp]
      have hrp : r.filePath = p := eq_of_beq hp
      have hsome : (files.find? (fun e => e.1 == p)).isSome = true := by
        rw [find_isSome_eq_any, ← hrp]
        exact hc
      obtain ⟨ef, hef⟩ := Option.isSome_iff_exists.mp hsome
      rw [hef]
      simp
    · rw [if_neg hp, if_neg hp]
  · rw [if_neg hc, find?_append_singleton]
    by_cases hp : (r.filePath == p) = true
    · rw [if_pos hp]
      have hrp : r.filePath = p := eq_of_beq hp
      have hnone : files.find? (fun e => e.1 == p) = none := by
        cases hfd : files.find? (fun e => e.1 == p) with
        | none => rfl
        | some x =>
          have hany : files.any (fun e => e.1 == p) = true := by
            rw [← find_isSome_eq_any, hfd]
            rfl
          rw [hrp] at hc
          exact absurd hany hc
      rw [hnone]
      simp [hp]
    · conv_rhs => rw [if_neg hp]
      have hnp : (r.filePath == p) = false := Bool.eq_false_iff.mpr hp
      cases hfd : files.find? (fun e => e.1 == p) with
      | some x => simp [hfd]
      | none => simp [hfd, hnp]

theorem filesLookup_pushExample (index : List (String × List Char))
    (files : List (String × DocFile)) (x : CodeExample) (p : String) :
    filesLookup (pushExample index files x) p =
      (if x.filePath == p then
        (match filesLookup files p with
        | some df =>
          some (DocFile.mk df.path df.content df.references (df.examples ++ [x]))
        | none => some (DocFile.mk x.filePath (indexContent index x.filePath) [] [x]))
      else filesLookup files p) := by
  unfold pushExample filesLookup
  by_cases hc : files.any (fun e => e.1 == x.filePath) = true
  · rw [if_pos hc, find?_key_map_update]
    by_cases hp : (x.filePath == p) = true
    · rw [if_pos hp, if_pos hp]
      have hrp : x.filePath = p := eq_of_beq hp
      have hsome : (files.find? (fun e => e.1 == p)).isSome = true := by
        rw [find_isSome_eq_any, ← hrp]
        exact hc
      obtain ⟨ef, hef⟩ := Option.isSome_iff_exists.mp hsome
      rw [hef]
      simp
    · rw [if_neg hp, if_neg hp]
  · rw [if_neg hc, find?_append_singleton]
    by_cases hp : (x.filePath == p) = true
    · rw [if_pos hp]
      have hrp : x.filePath = p := eq_of_beq hp
      have hnone : files.find? (fun e => e.1 == p) = none := by
        cases hfd : files.find? (fun e => e.1 == p) with
        | none => rfl
        | some y =>
          have hany : files.any (fun e => e.1 == p) = true := by
            rw [← find_isSome_eq_any, hfd]
            rfl
          rw [hrp] at hc
          exact absurd hany hc
      rw [hnone]
      simp [hp]
    · conv_rhs => rw [if_neg hp]
      have hnp : (x.filePath == p) = false := Bool.eq_false_iff.mpr hp
      cases hfd : files.find? (fun e => e.1 == p) with
      | some y => simp [hfd]
      | none => simp [hfd, hnp]

theorem files_mk (f : List (String × DocFile)) (t : Nat) (m : List APIElement) :
    (AffectedDocumentation.mk f t m).files = f := rfl

theorem filesLookup_foldl_pushReference (index : List (String × List Char))
    (rs : List DocReference) :
    ∀ (files : List (String × DocFile)) (p : String),
      filesLookup (rs.foldl (pushReference index) files) p =
        (match filesLookup files p with
        | some df => some (DocFile.mk df.path df.content
            (df.references ++ rs.filter (fun r => r.filePath == p)) df.examples)
        | none =>
          if rs.filter (fun r => r.filePath == p) = [] then none
          else some (DocFile.mk p (indexContent index p)
            (rs.filter (fun r => r.filePath == p)) [])) := by
  induction rs with
  | nil =>
    intro files p
    simp only [List.foldl_nil, List.filter_nil]
    cases hlk : filesLookup files p with
    | some df => simp
    | none => simp
  | cons r rs ih =>
    intro files p
    rw [List.foldl_cons, ih, filesLookup_pushReference]
    by_cases hr : (r.filePath == p) = true
    · have hrp : r.filePath = p := eq_of_beq hr
      rw [if_pos hr, hrp]
      cases hlk : filesLookup files p with
      | some df =>
        simp only [List.filter_cons, hr, if_true]
        simp [List.append_assoc]
      | none =>
        simp only [List.filter_cons, hr, if_true]
        simp
    · have hnr : (r.filePath == p) = false := Bool.eq_false_iff.mpr hr
      rw [if_neg hr]
      simp only [List.filter_cons, hnr, Bool.false_eq_true, if_false]

theorem filesLookup_foldl_pushExample (index : List (String × List Char))
    (xs : List CodeExample) :
    ∀ (files : List (String × DocFile)) (p : String),
      filesLookup (xs.foldl (pushExample index) files) p =
        (match filesLookup files p with
        | some df => some (DocFile.mk df.path df.content df.references
            (df.examples ++ xs.filter (fun x => x.filePath == p)))
        | none =>
          if xs.filter (fun x => x.filePath == p) = [] then none
          else some (DocFile.mk p (indexContent index p) []
            (xs.filter (fun x => x.filePath == p)))) := by
  induction xs with
  | nil =>
    intro files p
    simp only [List.foldl_nil, List.filter_nil]
    cases hlk : filesLookup files p with
    | some df => simp
    | none => simp
  | cons x xs ih =>
    intro files p
    rw [List.foldl_cons, ih, filesLookup_pushExample]
    by_cases hx : (x.filePath == p) = true
    · have hxp : x.filePath = p := eq_of_beq hx
      rw [if_pos hx, hxp]
      cases hlk : filesLookup files p with
      | some df =>
        simp only [List.filter_cons, hx, if_true]
        simp [List.append_assoc]
      | none =>
        simp only [List.filter_cons, hx, if_true]
        simp
    · have hnx : (x.filePath == p) = false := Bool.eq_false_iff.mpr hx
      rw [if_neg hx]
      simp only [List.filter_cons, hnx, Bool.false_eq_true, if_false]

theorem filesLookup_processAPI (index : List (String × List Char))
    (st : AffectedDocumentation) (api : APIElement) (p : String) :
    filesLookup (processAPI index st api).files p =
      (match filesLookup st.files p with
      | some df => some (DocFile.mk df.path df.content
          (df.references ++ (findReferences index api).filter (fun r => r.filePath == p))
          (df.examples ++ (findCodeExamples index api).filter (fun x => x.filePath == p)))
      | none =>
        if (findReferences index api).filter (fun r => r.filePath == p) = [] ∧
            (findCodeExamples index api).filter (fun x => x.filePath == p) = [] then none
        else some (DocFile.mk p (indexContent index p)
          ((findReferences index api).filter (fun r => r.filePath == p))
          ((findCodeExamples index api).filter (fun x => x.filePath == p)))) := by
  unfold processAPI
  by_cases hskip : ((findReferences index api).isEmpty &&
      (findCodeExamples index api).isEmpty && api.isPublic) = true
  · rw [if_pos hskip]
    have h' := hskip
    simp only [Bool.and_eq_true] at h'
    obtain ⟨⟨h1, h2⟩, h3⟩ := h'
    rw [List.isEmpty_iff] at h1 h2
    rw [h1, h2]
    simp only [List.filter_nil, files_mk]
    cases hlk : filesLookup st.files p with
    | some df => simp
    | none => simp
  · rw [if_neg hskip]
    rw [files_mk, filesLookup_foldl_pushExample, filesLookup_foldl_pushReference]
    cases hlk : filesLookup st.files p with
    | some df => simp
    | none =>
      by_cases hre : (findReferences index api).filter (fun r => r.filePath == p) = []
      · rw [hre]
        by_cases hex : (findCodeExamples index api).filter (fun x => x.filePath == p) = []
        · simp [hex]
        · simp [hex]
      · rw [if_neg hre]
        simp [hre]

theorem filesLookup_foldl_processAPI (index : List (String × List Char))
    (L : List APIElement) :
    ∀ (st : AffectedDocumentation) (p : String),
      filesLookup ((L.foldl (processAPI index) st).files) p =
        (match filesLookup st.files p with
        | some df => some (DocFile.mk df.path df.content
            (df.references ++
              L.flatMap (fun a => (findReferences index a).filter (fun r => r.filePath == p)))
            (df.examples ++
              L.flatMap (fun a => (findCodeExamples index a).filter (fun x => x.filePath == p))))
        | none =>
          if L.flatMap (fun a => (findReferences index a).filter (fun r => r.filePath == p)) = [] ∧
              L.flatMap (fun a => (findCodeExamples index a).filter (fun x => x.filePath == p)) = []
            then none
          else some (DocFile.mk p (indexContent index p)
            (L.flatMap (fun a => (findReferences index a).filter (fun r => r.filePath == p)))
            (L.flatMap (fun a => (findCodeExamples index a).filter (fun x => x.filePath == p))))) := by
  induction L with
  | nil =>
    intro st p
    simp only [List.foldl_nil, List.flatMap_nil]
    cases hlk : filesLookup st.files p with
    | some df => simp
    | none => simp
  | cons a L ih =>
    intro st p
    rw [List.foldl_cons, ih, filesLookup_processAPI]
    simp only [List.flatMap_cons]
    cases hlk : filesLookup st.files p with
    | some df =>
      simp [List.append_assoc]
    | none =>
      by_cases hA : ((findReferences index a).filter (fun r => r.filePath == p) = [] ∧
          (findCodeExamples index a).filter (fun x => x.filePath == p) = [])
      · obtain ⟨hA1, hA2⟩ := hA
        rw [hA1, hA2]
        simp
      · rw [if_neg hA]
        have hcond : ¬((findReferences index a).filter (fun r => r.filePath == p) ++
            L.flatMap (fun a => (findReferences index a).filter (fun r => r.filePath == p)) = [] ∧
            (findCodeExamples index a).filter (fun x => x.filePath == p) ++
            L.flatMap (fun a => (findCodeExamples index a).filter (fun x => x.filePath == p)) = []) := by
          intro hcc
          apply hA
          exact ⟨(List.append_eq_nil.mp hcc.1).1, (List.append_eq_nil.mp hcc.2).1⟩
        rw [if_neg hcond]

theorem keys_map_update (l : List (String × DocFile)) (q : String)
    (g : String × DocFile → DocFile) :
    (l.map (fun e => if e.1 == q then (e.1, g e) else e)).map Prod.fst =
      l.map Prod.fst := by
  induction l with
  | nil => rfl
  | cons e t ih =>
    simp only [List.map_cons, ih]
    by_cases heq : (e.1 == q) = true
    · rw [if_pos heq]
    · rw [if_neg heq]

theorem keys_pushReference (index : List (String × List Char))
    (files : List (String × DocFile)) (r : DocReference)
    (h : (files.map Prod.fst).Nodup) :
    ((pushReference index files r).map Prod.fst).Nodup := by
  unfold pushReference
  by_cases hc : files.any (fun e => e.1 == r.filePath) = true
  · rw [if_pos hc, keys_map_update]
    exact h
  · rw [if_neg hc, List.map_append]
    apply List.Nodup.append h (by simp)
    intro y hy hy2
    simp only [List.map_cons, List.map_nil, List.mem_singleton] at hy2
    subst hy2
    obtain ⟨e, he, hfst⟩ := List.mem_map.mp hy
    apply hc
    rw [List.any_eq_true]
    exact ⟨e, he, beq_iff_eq.mpr hfst⟩

theorem keys_pushExample (index : List (String × List Char))
    (files : List (String × DocFile)) (x : CodeExample)
    (h : (files.map Prod.fst).Nodup) :
    ((pushExample index files x).map Prod.fst).Nodup := by
  unfold pushExample
  by_cases hc : files.any (fun e => e.1 == x.filePath) = true
  · rw [if_pos hc, keys_map_update]
    exact h
  · rw [if_neg hc, List.map_append]
    apply List.Nodup.append h (by simp)
    intro y hy hy2
    simp only [List.map_cons, List.map_nil, List.mem_singleton] at hy2
    subst hy2
    obtain ⟨e, he, hfst⟩ := List.mem_map.mp hy
    apply hc
    rw [List.any_eq_true]
    exact ⟨e, he, beq_iff_eq.mpr hfst⟩

theorem keys_foldl_pushReference (index : List (String × List Char))
    (rs : List DocReference) :
    ∀ files : List (String × DocFile), (files.map Prod.fst).Nodup →
      ((rs.foldl (pushReference index) files).map Prod.fst).Nodup := by
  induction rs with
  | nil => intro files h; exact h
  | cons r t ih =>
    intro files h
    rw [List.foldl_cons]
    exact ih _ (keys_pushReference index files r h)

theorem keys_foldl_pushExample (index : List (String × List Char))
    (xs : List CodeExample) :
    ∀ files : List (String × DocFile), (files.map Prod.fst).Nodup →
      ((xs.foldl (pushExample index) files).map Prod.fst).Nodup := by
  induction xs with
  | nil => intro files h; exact h
  | cons x t ih =>
    intro files h
    rw [List.foldl_cons]
    exact ih _ (keys_pushExample index files x h)

theorem keys_processAPI (index : List (String × List Char))
    (st : AffectedDocumentation) (api : APIElement)
    (h : (st.files.map Prod.fst).Nodup) :
    (((processAPI index st api).files).map Prod.fst).Nodup := by
  unfold processAPI
  by_cases hskip : ((findReferences index api).isEmpty &&
      (findCodeExamples index api).isEmpty && api.isPublic) = true
  · rw [if_pos hskip, files_mk]
    exact h
  · rw [if_neg hskip, files_mk]
    exact keys_foldl_pushExample index _ _ (keys_foldl_pushReference index _ _ h)

theorem keys_foldl_processAPI (index : List (String × List Char))
    (L : List APIElement) :
    ∀ st : AffectedDocumentation, (st.files.map Prod.fst).Nodup →
      (((L.foldl (processAPI index) st).files).map Prod.fst).Nodup := by
  induction L with
  | nil => intro st h; exact h
  | cons a t ih =>
    intro st h
    rw [List.foldl_cons]
    exact ih _ (keys_processAPI index st a h)

theorem mem_iff_filesLookup :
    ∀ (files : List (String × DocFile)) (p : String) (df : DocFile),
      (files.map Prod.fst).Nodup →
      ((p, df) ∈ files ↔ filesLookup files p = some df) := by
  intro files
  induction files with
  | nil => intro p df _; simp [filesLookup, List.find?]
  | cons e t ih =>
    intro p df hnd
    obtain ⟨k, d⟩ := e
    simp only [List.map_cons, List.nodup_cons] at hnd
    obtain ⟨hnotin, hndt⟩ := hnd
    by_cases hep : (k == p) = true
    · have h2 : k = p := eq_of_beq hep
      have hfind : List.find? (fun e => e.1 == p) ((k, d) :: t) = some (k, d) :=
        List.find?_cons_of_pos _ hep
      have hl : filesLookup ((k, d) :: t) p = some d := by
        unfold filesLookup
        rw [hfind]
        rfl
      rw [hl]
      constructor
      · intro hmem
        rcases List.mem_cons.mp hmem with heq | hmem2
        · injection heq with h1 h2
          rw [h2]
        · exfalso
          apply hnotin
          rw [h2]
          exact List.mem_map.mpr ⟨(p, df), hmem2, rfl⟩
      · intro hsome
        have hdd : d = df := Option.some.inj hsome
        apply List.mem_cons.mpr
        left
        rw [h2, hdd]
    · have hfind : List.find? (fun e => e.1 == p) ((k, d) :: t) =
          List.find? (fun e => e.1 == p) t :=
        List.find?_cons_of_neg _ hep
      have hl : filesLookup ((k, d) :: t) p = filesLookup t p := by
        unfold filesLookup
        rw [hfind]
      rw [hl, ← ih p df hndt]
      constructor
      · intro hm
        rcases List.mem_cons.mp hm with heq | hm2
        · exfalso
          have hpk : p = k := congrArg Prod.fst heq
          exact hep (beq_iff_eq.mpr hpk.symm)
        · exact hm2
      · intro hm
        exact List.mem_cons_of_mem _ hm

theorem filesLookup_mapAffectedDocs (index : List (String × List Char))
    (diff : APIDiff) (p : String) :
    filesLookup (mapAffectedDocs index diff).files p =
      (if (changedAPIs diff).flatMap
            (fun a => (findReferences index a).filter (fun r => r.filePath == p)) = [] ∧
          (changedAPIs diff).flatMap
            (fun a => (findCodeExamples index a).filter (fun x => x.filePath == p)) = []
        then none
        else some (DocFile.mk p (indexContent index p)
          ((changedAPIs diff).flatMap
            (fun a => (findReferences index a).filter (fun r => r.filePath == p)))
          ((changedAPIs diff).flatMap
            (fun a => (findCodeExamples index a).filter (fun x => x.filePath == p))))) := by
  unfold mapAffectedDocs
  rw [filesLookup_foldl_processAPI]
  have h0 : filesLookup (AffectedDocumentation.mk [] 0 []).files p = none := rfl
  rw [h0]

/-- C6: the Aggregator queries exactly the changed elements (added,
removed, and the new side of each modified pair; the unchanged bucket
is irrelevant to the result); an element with no references and no
examples lands in missingDocs exactly when it is public; every
DocFile entry of the result carries at least one hit (so a
missing-doc element contributes no entry); totalReferences is the
sum over the queried elements of their reference counts alone, so a
line matched by two changed elements is counted twice; the files map
has at most one entry per file path; and a pair (p, df) is an entry
of the files map exactly when some queried element has a reference or
example hit in file p, in which case df's path is p, its content is
the indexed content of p, and its references and examples are
precisely the finder outputs for the queried elements in order, each
filtered to the hits lying in p: every found reference and example is
appended to the lazily created entry of its own file, none dropped,
none misfiled. -/
theorem mapAffectedDocs_spec (index : List (String × List Char)) (diff : APIDiff) :
    (mapAffectedDocs index diff).missingDocs =
      (changedAPIs diff).filter (fun api => (findReferences index api).isEmpty &&
        (findCodeExamples index api).isEmpty && api.isPublic) ∧
    (mapAffectedDocs index diff).totalReferences =
      ((changedAPIs diff).map (fun api => (findReferences index api).length)).sum ∧
    (∀ e ∈ (mapAffectedDocs index diff).files,
      0 < e.2.references.length + e.2.examples.length) ∧
    (∀ l, mapAffectedDocs index { diff with unchanged := l } =
      mapAffectedDocs index diff) ∧
    ((mapAffectedDocs index diff).files.map Prod.fst).Nodup ∧
    (∀ p df, (p, df) ∈ (mapAffectedDocs index diff).files ↔
      (¬((changedAPIs diff).flatMap
            (fun a => (findReferences index a).filter (fun r => r.filePath == p)) = [] ∧
          (changedAPIs diff).flatMap
            (fun a => (findCodeExamples index a).filter (fun x => x.filePath == p)) = []) ∧
        df = DocFile.mk p (indexContent index p)
          ((changedAPIs diff).flatMap
            (fun a => (findReferences index a).filter (fun r => r.filePath == p)))
          ((changedAPIs diff).flatMap
            (fun a => (findCodeExamples index a).filter (fun x => x.filePath == p))))) := by
  have hnd : ((mapAffectedDocs index diff).files.map Prod.fst).Nodup := by
    unfold mapAffectedDocs
    exact keys_foldl_processAPI index _ _ (by simp)
  refine ⟨?_, ?_, ?_, fun l => rfl, hnd, ?_⟩
  · unfold mapAffectedDocs
    rw [foldl_processAPI_missingDocs]
    rfl
  · unfold mapAffectedDocs
    rw [foldl_processAPI_totalReferences]
    simp
  · unfold mapAffectedDocs
    exact foldl_processAPI_files_nonempty index _ _ (by intro e he; simp at he)
  · intro p df
    rw [mem_iff_filesLookup _ p df hnd, filesLookup_mapAffectedDocs]
    by_cases hc : ((changedAPIs diff).flatMap
          (fun a => (findReferences index a).filter (fun r => r.filePath == p)) = [] ∧
        (changedAPIs diff).flatMap
          (fun a => (findCodeExamples index a).filter (fun x => x.filePath == p)) = [])
    · rw [if_pos hc]
      constructor
      · intro h
        exact Option.noConfusion h
      · intro h
        exact absurd hc h.1
    · rw [if_neg hc]
      constructor
      · intro h
        exact ⟨hc, (Option.some.inj h).symm⟩
      · intro h
        rw [h.2]

/-- Witness for C6 at a one-file index matched by one added public
element. -/
theorem mapAffectedDocs_spec_witness :
    ("a.md", DocFile.mk "a.md" (String.data "getUser hello")
        [DocReference.mk "a.md" 1 (String.data "getUser hello") "name"] []) ∈
      (mapAffectedDocs [("a.md", String.data "getUser hello")]
        (APIDiff.mk [elGetUser] [] [] [])).files ∧
    0 < (DocFile.mk "a.md" (String.data "getUser hello")
        [DocReference.mk "a.md" 1 (String.data "getUser hello") "name"] []).references.length +
      (DocFile.mk "a.md" (String.data "getUser hello")
        [DocReference.mk "a.md" 1 (String.data "getUser hello") "name"] []).examples.length :=
  ⟨by decide,
    (mapAffectedDocs_spec [("a.md", String.data "getUser hello")]
      (APIDiff.mk [elGetUser] [] [] [])).2.2.1
      ("a.md", DocFile.mk "a.md" (String.data "getUser hello")
        [DocReference.mk "a.md" 1 (String.data "getUser hello") "name"] []) (by decide)⟩

/-- C7 counterexample: a modified change whose previous content is
unavailable is parsed on the new side but contributes no APIDiff, so
"the Diff Engine is run for every change that is not a pure addition,
one APIDiff per such change" fails as stated. -/
theorem parseAndAnalyze_counterexample :
    chModNoPrev.changeType = "modified" ∧
    (parseAndAnalyze trivParse [chModNoPrev]).1 =
      [("f.ts", ParsedCode.mk [elGetUser] [] [])] ∧
    (parseAndAnalyze trivParse [chModNoPrev]).2.1 = [] ∧
    (parseAndAnalyze trivParse [chModNoPrev]).2.2 = [] :=
  ⟨rfl, rfl, rfl, rfl⟩

theorem pa_parsed_mem (parse : String → String → Except String ParsedCode) :
    ∀ (changes : List CodeChange), ∀ c ∈ changes, ∀ P,
      parse c.content c.language = Except.ok P →
      (c.filePath, P) ∈ (parseAndAnalyze parse changes).1 := by
  intro changes
  induction changes with
  | nil => intro c hc; simp at hc
  | cons a t ih =>
    intro c hc P hP
    rcases List.mem_cons.mp hc with rfl | hct
    · simp only [parseAndAnalyze, hP]
      split
      · split
        · simp
        · simp
      · split
        · simp
        · simp
    · have hmem := ih c hct P hP
      simp only [parseAndAnalyze]
      split
      · simpa using hmem
      · split
        · split
          · simp [hmem]
          · simp [hmem]
        · split
          · simp [hmem]
          · simp [hmem]

theorem pa_added_diff (parse : String → String → Except String ParsedCode) :
    ∀ (changes : List CodeChange), ∀ c ∈ changes, c.changeType = "added" → ∀ P,
      parse c.content c.language = Except.ok P →
      APIDiff.mk P.apis [] [] [] ∈ (parseAndAnalyze parse changes).2.1 := by
  intro changes
  induction changes with
  | nil => intro c hc; simp at hc
  | cons a t ih =>
    intro c hc hadd P hP
    rcases List.mem_cons.mp hc with rfl | hct
    · simp only [parseAndAnalyze, hP]
      split
      · rename_i hcnd
        rw [hadd] at hcnd
        simp at hcnd
      · split
        · simp
        · rename_i hcnd2
          rw [hadd] at hcnd2
          simp at hcnd2
    · have hmem := ih c hct hadd P hP
      simp only [parseAndAnalyze]
      split
      · simpa using hmem
      · split
        · split
          · simp [hmem]
          · simp [hmem]
        · split
          · simp [hmem]
          · simp [hmem]

theorem pa_modified_diff (parse : String → String → Except String ParsedCode) :
    ∀ (changes : List CodeChange), ∀ c ∈ changes, ∀ prev,
      c.previousContent = some prev → prev ≠ "" → c.changeType ≠ "added" →
      ∀ P Q, parse c.content c.language = Except.ok P →
        parse prev c.language = Except.ok Q →
        analyze Q.apis P.apis ∈ (parseAndAnalyze parse changes).2.1 := by
  intro changes
  induction changes with
  | nil => intro c hc; simp at hc
  | cons a t ih =>
    intro c hc prev hprev hpne hnadd P Q hP hQ
    have hcond : (prevTruthy c && !(c.changeType == "added")) = true := by
      unfold prevTruthy
      rw [hprev]
      simp [hpne, hnadd]
    have hgd : c.previousContent.getD "" = prev := by rw [hprev]; rfl
    rcases List.mem_cons.mp hc with rfl | hct
    · simp only [parseAndAnalyze, hP]
      split
      · rw [hgd, hQ]
        simp
      · rename_i hcnd
        exact absurd hcond hcnd
    · have hmem := ih c hct prev hprev hpne hnadd P Q hP hQ
      simp only [parseAndAnalyze]
      split
      · simpa using hmem
      · split
        · split
          · simp [hmem]
          · simp [hmem]
        · split
          · simp [hmem]
          · simp [hmem]

theorem pa_diff_count (parse : String → String → Except String ParsedCode) :
    ∀ (changes : List CodeChange),
      (parseAndAnalyze parse changes).2.1.length =
        changes.countP (contributesDiff parse) := by
  intro changes
  induction changes with
  | nil => rfl
  | cons a t ih =>
    rw [List.countP_cons]
    simp only [parseAndAnalyze]
    cases hq : parse a.content a.language with
    | error e =>
      have hc : contributesDiff parse a = false := by
        simp only [contributesDiff, hq]
      simp [hc, ih]
    | ok newP =>
      by_cases hcond : (prevTruthy a && !(a.changeType == "added")) = true
      · simp only [hcond, if_true]
        cases hq2 : parse (a.previousContent.getD "") a.language with
        | error e =>
          have hc : contributesDiff parse a = false := by
            simp only [contributesDiff, hq, hq2]
            simp [hcond]
          simp [hc, ih]
        | ok Q =>
          have hc : contributesDiff parse a = true := by
            simp only [contributesDiff, hq, hq2]
            simp [hcond]
          simp [hc, ih]
      · have hcf : (prevTruthy a && !(a.changeType == "added")) = false :=
          Bool.eq_false_iff.mpr hcond
        simp only [hcf, Bool.false_eq_true, if_false]
        by_cases ha : (a.changeType == "added") = true
        · have hc : contributesDiff parse a = true := by
            simp only [contributesDiff, hq]
            simp [hcf, ha]
          simp [ha, hc, ih]
        · have haf : (a.changeType == "added") = false := Bool.eq_false_iff.mpr ha
          have hc : contributesDiff parse a = false := by
            have hpf : prevTruthy a = false := by
              rw [haf] at hcf
              simpa using hcf
            simp only [contributesDiff, hq]
            simp [hpf, haf]
          simp [haf, hc, ih]

theorem parseAndAnalyze_amended (parse : String → String → Except String ParsedCode)
    (changes : List CodeChange) :
    (∀ c ∈ changes, ∀ P, parse c.content c.language = Except.ok P →
      (c.filePath, P) ∈ (parseAndAnalyze parse changes).1) ∧
    (∀ c ∈ changes, c.changeType = "added" → ∀ P,
      parse c.content c.language = Except.ok P →
      APIDiff.mk P.apis [] [] [] ∈ (parseAndAnalyze parse changes).2.1) ∧
    (∀ c ∈ changes, ∀ prev, c.previousContent = some prev → prev ≠ "" →
      c.changeType ≠ "added" →
      ∀ P Q, parse c.content c.language = Except.ok P →
        parse prev c.language = Except.ok Q →
        analyze Q.apis P.apis ∈ (parseAndAnalyze parse changes).2.1) ∧
    (parseAndAnalyze parse changes).2.1.length =
      changes.countP (contributesDiff parse) :=
  ⟨pa_parsed_mem parse changes, pa_added_diff parse changes,
    pa_modified_diff parse changes, pa_diff_count parse changes⟩

/-- Witness for C7 amended at a concrete added change. -/
theorem parseAndAnalyze_amended_witness :
    chAdded ∈ [chAdded] ∧ chAdded.changeType = "added" ∧
    APIDiff.mk [elGetUser] [] [] [] ∈ (parseAndAnalyze trivParse [chAdded]).2.1 :=
  ⟨List.mem_singleton.mpr rfl, rfl,
    (parseAndAnalyze_amended trivParse [chAdded]).2.1 chAdded
      (List.mem_singleton.mpr rfl) rfl (ParsedCode.mk [elGetUser] [] []) rfl⟩

/-- Witness for C4 amended at concrete permuted collections with
unique names. -/
theorem analyze_perm_invariant_witness :
    List.Perm [elBar, elFoo] [elFoo, elBar] ∧
    (([elFoo, elBar].map (fun a => a.name)).Nodup) ∧
    calculateSeverity (analyze [elFoo] [elBar, elFoo]) =
      calculateSeverity (analyze [elFoo] [elFoo, elBar]) :=
  ⟨List.Perm.swap elFoo elBar [], by decide,
    (analyze_perm_invariant [elFoo] [elFoo, elBar] [elFoo] [elBar, elFoo]
      (List.Perm.refl _) (List.Perm.swap elFoo elBar []) (by decide)).2.2.2.2⟩

theorem filter_not_length {α : Type} (l : List α) (p : α → Bool) :
    (l.filter p).length + (l.filter (fun a => !(p a))).length = l.length := by
  induction l with
  | nil => rfl
  | cons a t ih =>
    by_cases h : p a = true <;> simp [List.filter_cons, h] <;> omega

theorem run_eq_runDeep (cfg : AgentConfig) (collab : Collaborators)
    (changes : List CodeChange)
    (hdet : collab.detect = Except.ok changes)
    (hne : changes.length ≠ 0)
    (hfne : (filterDiffsBySeverity cfg (parseAndAnalyze collab.parse changes).2.1).length ≠ 0)
    (haff : (mapAffectedDocs collab.docIndex (combineDiffs (filterDiffsBySeverity cfg
      (parseAndAnalyze collab.parse changes).2.1))).files.length ≠ 0) :
    run cfg collab = runDeep cfg collab changes := by
  have h1 : (changes.length == 0) = false := by simp [hne]
  have h2 : ((filterDiffsBySeverity cfg
      (parseAndAnalyze collab.parse changes).2.1).length == 0) = false := by
    simp [hfne]
  have h3 : ((mapAffectedDocs collab.docIndex (combineDiffs (filterDiffsBySeverity cfg
      (parseAndAnalyze collab.parse changes).2.1))).files.length == 0) = false := by
    simp [haff]
  unfold run runDeep
  rw [hdet]
  simp only [h1, h2, h3, Bool.false_eq_true, if_false]

theorem applyApprovedUpdates_all_reject (write : String → String → Except String Unit) :
    ∀ pairs : List (DocumentationUpdate × ReviewDecision),
      (∀ p ∈ pairs, p.2.action = "reject") →
      applyApprovedUpdates write pairs = (0, []) := by
  intro pairs
  induction pairs with
  | nil => intro _; rfl
  | cons p t ih =>
    intro h
    have hd : p.2.action = "reject" := h p (List.mem_cons_self _ _)
    obtain ⟨u, d⟩ := p
    simp only [applyApprovedUpdates]
    rw [if_neg (by simp_all)]
    exact ih (fun q hq => h q (List.mem_cons_of_mem _ hq))

theorem applyApprovedUpdates_all_approve (write : String → String → Except String Unit) :
    ∀ (us : List DocumentationUpdate) (ds : List ReviewDecision),
      (∀ d ∈ ds, d.action = "approve") →
      (applyApprovedUpdates write (us.zip ds)).1 =
        ((us.zip ds).filter (fun p => writeSucceeds write p.1)).length ∧
      (applyApprovedUpdates write (us.zip ds)).2.length =
        ((us.zip ds).filter (fun p => !(writeSucceeds write p.1))).length := by
  intro us
  induction us with
  | nil => intro ds h; simp [applyApprovedUpdates]
  | cons u ut ih =>
    intro ds h
    cases ds with
    | nil => simp [applyApprovedUpdates]
    | cons d dt =>
      have hd : d.action = "approve" := h d (List.mem_cons_self _ _)
      have hih := ih dt (fun d2 hd2 => h d2 (List.mem_cons_of_mem _ hd2))
      have hctw : contentToWrite u d = u.updatedContent := by
        unfold contentToWrite
        rw [if_neg (by simp [hd])]
      simp only [List.zip_cons_cons, applyApprovedUpdates]
      rw [if_pos (by simp [hd]), hctw]
      cases hw : write u.filePath u.updatedContent with
      | ok _ =>
        have hws : writeSucceeds write u = true := by
          simp only [writeSucceeds, hw]
        simp [List.filter_cons, hws]
        exact hih
      | error e =>
        have hws : writeSucceeds write u = false := by
          simp only [writeSucceeds, hw]
        simp [List.filter_cons, hws]
        exact hih

theorem applyApprovedUpdates_approve_counts (write : String → String → Except String Unit)
    (us : List DocumentationUpdate) (ds : List ReviewDecision)
    (hlen : ds.length = us.length)
    (h : ∀ d ∈ ds, d.action = "approve") :
    (applyApprovedUpdates write (us.zip ds)).1 =
      (us.filter (writeSucceeds write)).length ∧
    (applyApprovedUpdates write (us.zip ds)).2.length =
      (us.filter (fun u => !(writeSucceeds write u))).length := by
  have h1 := applyApprovedUpdates_all_approve write us ds h
  have hfst : (us.zip ds).map Prod.fst = us := List.map_fst_zip us ds (by omega)
  have hz1 : ((us.zip ds).filter (fun p => writeSucceeds write p.1)).length =
      (us.filter (writeSucceeds write)).length := by
    rw [← List.countP_eq_length_filter, ← List.countP_eq_length_filter]
    conv_rhs => rw [← hfst]
    rw [List.countP_map]
    rfl
  have hz2 : ((us.zip ds).filter (fun p => !(writeSucceeds write p.1))).length =
      (us.filter (fun u => !(writeSucceeds write u))).length := by
    rw [← List.countP_eq_length_filter, ← List.countP_eq_length_filter]
    conv_rhs => rw [← hfst]
    rw [List.countP_map]
    rfl
  exact ⟨h1.1.trans hz1, h1.2.trans hz2⟩

/-- C8: a write failure for one file is recorded as an error while
the remaining approved updates are still written and the run's
success flag stays true: a run that reaches the apply phase with
three approved updates, exactly one of whose writes fails, returns
updatesApplied = 2, errors.length = 1 and success = true. -/
theorem run_apply_write_failure (cfg : AgentConfig) (collab : Collaborators)
    (changes : List CodeChange) (updates : List DocumentationUpdate)
    (decisions : List ReviewDecision)
    (hdet : collab.detect = Except.ok changes)
    (hne : changes.length ≠ 0)
    (hperr : (parseAndAnalyze collab.parse changes).2.2 = [])
    (hfne : (filterDiffsBySeverity cfg (parseAndAnalyze collab.parse changes).2.1).length ≠ 0)
    (haff : (mapAffectedDocs collab.docIndex (combineDiffs (filterDiffsBySeverity cfg
      (parseAndAnalyze collab.parse changes).2.1))).files.length ≠ 0)
    (hgen : generateUpdates collab.generate (mapAffectedDocs collab.docIndex
      (combineDiffs (filterDiffsBySeverity cfg
        (parseAndAnalyze collab.parse changes).2.1))).files = (updates, []))
    (hrev : reviewUpdates collab.review updates = (decisions, []))
    (hdlen : decisions.length = updates.length)
    (hdall : ∀ d ∈ decisions, d.action = "approve")
    (hulen : updates.length = 3)
    (hwfail : (updates.filter (fun u => !(writeSucceeds collab.write u))).length = 1) :
    (run cfg collab).success = true ∧
    (run cfg collab).updatesApplied = 2 ∧
    (run cfg collab).errors.length = 1 := by
  have happly := applyApprovedUpdates_approve_counts collab.write updates decisions hdlen hdall
  have hcomp := filter_not_length updates (writeSucceeds collab.write)
  rw [run_eq_runDeep cfg collab changes hdet hne hfne haff]
  simp only [runDeep, hgen, hrev, hperr]
  refine ⟨by trivial, ?_, ?_⟩
  · rw [happly.1]
    omega
  · simp only [List.nil_append, List.append_nil, List.length_append, List.length_nil]
    rw [happly.2]
    omega

/-- Witness for C8 at concrete collaborators with three affected
documentation files of which the second one's write fails. -/
theorem run_apply_write_failure_witness :
    (run (AgentConfig.mk ChangeSeverity.patch) collabApply).success = true ∧
    (run (AgentConfig.mk ChangeSeverity.patch) collabApply).updatesApplied = 2 ∧
    (run (AgentConfig.mk ChangeSeverity.patch) collabApply).errors.length = 1 :=
  run_apply_write_failure (AgentConfig.mk ChangeSeverity.patch) collabApply [chAdded]
    [DocumentationUpdate.mk "d1.md" "" "new" "why",
     DocumentationUpdate.mk "d2.md" "" "new" "why",
     DocumentationUpdate.mk "d3.md" "" "new" "why"]
    [ReviewDecision.mk "approve" none none, ReviewDecision.mk "approve" none none,
     ReviewDecision.mk "approve" none none]
    rfl (by decide) rfl (by decide) (by decide) rfl rfl rfl (by decide) rfl (by decide)

/-- C9: when the batch review call fails, every pending update is
treated as rejected, no update is applied, the review error is
recorded, and the run still completes with success = true. -/
theorem run_review_failure (cfg : AgentConfig) (collab : Collaborators)
    (changes : List CodeChange) (updates : List DocumentationUpdate)
    (gerrs : List String) (e : String)
    (hdet : collab.detect = Except.ok changes)
    (hne : changes.length ≠ 0)
    (hfne : (filterDiffsBySeverity cfg (parseAndAnalyze collab.parse changes).2.1).length ≠ 0)
    (haff : (mapAffectedDocs collab.docIndex (combineDiffs (filterDiffsBySeverity cfg
      (parseAndAnalyze collab.parse changes).2.1))).files.length ≠ 0)
    (hgen : generateUpdates collab.generate (mapAffectedDocs collab.docIndex
      (combineDiffs (filterDiffsBySeverity cfg
        (parseAndAnalyze collab.parse changes).2.1))).files = (updates, gerrs))
    (hrev : collab.review updates = Except.error e) :
    (reviewUpdates collab.review updates).1 =
      updates.map (fun _ => ReviewDecision.mk "reject" (some "Review failed") none) ∧
    (run cfg collab).updatesApplied = 0 ∧
    (run cfg collab).success = true ∧
    ("Review failed: " ++ e) ∈ (run cfg collab).errors := by
  have hru : reviewUpdates collab.review updates =
      (updates.map (fun _ => ReviewDecision.mk "reject" (some "Review failed") none),
        ["Review failed: " ++ e]) := by
    unfold reviewUpdates
    rw [hrev]
  have hreject : applyApprovedUpdates collab.write
      (updates.zip (updates.map
        (fun _ => ReviewDecision.mk "reject" (some "Review failed") none))) = (0, []) := by
    apply applyApprovedUpdates_all_reject
    intro p hp
    have hp2 := (List.mem_zip hp).2
    obtain ⟨u, _, hpe⟩ := List.mem_map.mp hp2
    rw [← hpe]
  have hrun : run cfg collab = runDeep cfg collab changes :=
    run_eq_runDeep cfg collab changes hdet hne hfne haff
  refine ⟨by rw [hru], ?_, ?_, ?_⟩
  · rw [hrun]
    simp only [runDeep, hgen, hru, hreject]
  · rw [hrun]
    simp only [runDeep, hgen, hru, hreject]
  · rw [hrun]
    simp only [runDeep, hgen, hru, hreject]
    simp [List.mem_append]

/-- Witness for C9 at concrete collaborators whose review call
fails. -/
theorem run_review_failure_witness :
    (run (AgentConfig.mk ChangeSeverity.patch) collabReviewFail).updatesApplied = 0 ∧
    (run (AgentConfig.mk ChangeSeverity.patch) collabReviewFail).success = true ∧
    ("Review failed: " ++ "boom") ∈
      (run (AgentConfig.mk ChangeSeverity.patch) collabReviewFail).errors :=
  ⟨(run_review_failure (AgentConfig.mk ChangeSeverity.patch) collabReviewFail [chAdded]
      [DocumentationUpdate.mk "d1.md" "" "new" "why"] [] "boom"
      rfl (by decide) (by decide) (by decide) rfl rfl).2.1,
   (run_review_failure (AgentConfig.mk ChangeSeverity.patch) collabReviewFail [chAdded]
      [DocumentationUpdate.mk "d1.md" "" "new" "why"] [] "boom"
      rfl (by decide) (by decide) (by decide) rfl rfl).2.2.1,
   (run_review_failure (AgentConfig.mk ChangeSeverity.patch) collabReviewFail [chAdded]
      [DocumentationUpdate.mk "d1.md" "" "new" "why"] [] "boom"
      rfl (by decide) (by decide) (by decide) rfl rfl).2.2.2⟩

/-- C10: with zero detected changes, run short-circuits to a
successful result with zero generated and applied updates and the
summary "No code changes detected", and no later phase is performed:
the result does not depend on any of the other collaborators. -/
theorem run_no_changes (cfg : AgentConfig) (c1 c2 : Collaborators)
    (h1 : c1.detect = Except.ok []) (h2 : c2.detect = Except.ok []) :
    run cfg c1 = AgentResult.mk true 0 0 [] "No code changes detected" ∧
    run cfg c1 = run cfg c2 := by
  have e1 : run cfg c1 = AgentResult.mk true 0 0 [] "No code changes detected" := by
    unfold run
    rw [h1]
    simp
  have e2 : run cfg c2 = AgentResult.mk true 0 0 [] "No code changes detected" := by
    unfold run
    rw [h2]
    simp
  exact ⟨e1, e1.trans e2.symm⟩

/-- Witness for C10 at two concrete collaborator sets that differ in
every later phase. -/
theorem run_no_changes_witness :
    run (AgentConfig.mk ChangeSeverity.minor) collabNoChanges =
      AgentResult.mk true 0 0 [] "No code changes detected" ∧
    run (AgentConfig.mk ChangeSeverity.minor) collabNoChanges =
      run (AgentConfig.mk ChangeSeverity.minor) collabNoChanges2 :=
  run_no_changes (AgentConfig.mk ChangeSeverity.minor) collabNoChanges collabNoChanges2
    rfl rfl

end DocAgent
